import Mathlib

/-!
The MLFQ task scheduler of axle (`src/kernel/util/multitasking/tasks/task.c`).

A shallow embedding of the ready-queue operations, the dispatcher, the
blocked-task sentinel and the reaper, followed by theorems about them.

Conventions of the embedding.

* A `task_t*` is an address (`task_ptr`); address `0` is `NULL`.  The task
  records live in `Sched.heap`, the sixteen queues hold addresses, exactly as
  the C arrays hold `task_t*` values.
* The global `queues` array is a list of queues; a pointer to one of its
  member arrays is identified with that member's index, because
  `tasking_install` allocates one distinct array per level.
* `ASSERT(0, ...)` halts the kernel: a function that can reach one returns
  `Option`, and `none` is the fatal halt.
* `kernel_begin_critical` / `kernel_end_critical` mask interrupts and touch
  neither the task records nor the queues; they do not appear in the state.
  Their calls are recorded apart, as event sequences (`guard_event`).
* The static counter `next_pid` is kept beside the scheduler state (`Kernel`);
  an address returned by `kmalloc` is an argument of the creating function.
-/

namespace Axle

/-! ## Data model -/

/-- Modelled from the spec: the `task_state` enumeration of `task.h`, missing from the
sources. Its values are the four states of the task state machine, under the names that
`task.c` uses (`PIT_WAIT` is the timer wait, `KB_WAIT` the input wait). -/
inductive task_state where
  | RUNNABLE
  | KB_WAIT
  | PIT_WAIT
  | ZOMBIE
deriving DecidableEq

/-- A `task_t*`: the address of a task record, `0` being `NULL`. -/
abbrev task_ptr := Nat

/-- Modelled from the spec: the record `task_t` of `task.h`, missing from the sources,
reduced to the fields that the queue, dispatch and wake code of `task.c` reads or writes
(`name`, `page_dir`, `files` and the saved registers play no part in them). -/
structure task_t where
  id : Int
  state : task_state
  queue : Int
  wake_timestamp : Nat
deriving DecidableEq

/-- The constant `MLFQ_QUEUES` of `task.c`. -/
def MLFQ_QUEUES : Int := 16

/-- The globals `current_task` and `queues`, with the memory holding the task records. -/
structure Sched where
  heap : task_ptr → task_t
  queues : List (List task_ptr)
  current_task : task_ptr

/-- Store `v` at address `p`. -/
def store (heap : task_ptr → task_t) (p : task_ptr) (v : task_t) : task_ptr → task_t :=
  fun q => if q = p then v else heap q

/-! ## The `array_m` collection

The collection type `array_m` and its operations are defined outside `task.c`, in a part
of the repository that is missing from the sources; the operations used by `task.c` are
modelled from the specification's description of the ready queues. -/

/-- Modelled from the spec: `array_m_lookup`, missing from the sources. The
collections are ordered and indexed from `0`; an index outside the collection
designates no entry. -/
def array_m_lookup {α : Type} (a : List α) (i : Int) : Option α :=
  if i < 0 then none else a[i.toNat]?

/-- Modelled from the spec: `array_m_insert`, missing from the sources. The spec's
`enqueue` "inserts task at the tail" and "collection order is insertion order". -/
def array_m_insert (a : List task_ptr) (item : task_ptr) : List task_ptr :=
  a ++ [item]

/-- Modelled from the spec: `array_m_index`, missing from the sources. The position
of the first entry equal to `item`, and a negative value when there is none
(the callers test `idx < 0`). -/
def array_m_index (a : List task_ptr) (item : task_ptr) : Int :=
  if item ∈ a then (a.indexOf item : Int) else -1

/-- Modelled from the spec: `array_m_remove`, missing from the sources. Removes the
entry at position `i`; the entries behind it move up by one and keep their order. -/
def array_m_remove (a : List task_ptr) (i : Int) : List task_ptr :=
  if i < 0 then a else a.eraseIdx i.toNat

/-! ## Queue primitives -/

/-- `tasking_installed`: `queues->size >= 1`. -/
def tasking_installed (s : Sched) : Bool :=
  decide (s.queues.length ≥ 1)

/-- `enqueue_task(task, queue)`. -/
def enqueue_task (s : Sched) (task : task_ptr) (queue : Int) : Option Sched :=
  if queue < 0 ∨ queue ≥ MLFQ_QUEUES then none
  else
    match array_m_lookup s.queues queue with
    | none => none
    | some raw =>
      some { s with
        queues := s.queues.set queue.toNat (array_m_insert raw task)
        heap := store s.heap task { s.heap task with queue := queue } }

/-- `dequeue_task(task)`. -/
def dequeue_task (s : Sched) (task : task_ptr) : Option Sched :=
  if (s.heap task).queue < 0 ∨ (s.heap task).queue ≥ MLFQ_QUEUES then none
  else
    match array_m_lookup s.queues (s.heap task).queue with
    | none => none
    | some raw =>
      let idx := array_m_index raw task
      if idx < 0 then none
      else some { s with queues := s.queues.set (s.heap task).queue.toNat (array_m_remove raw idx) }

/-- `switch_queue(task, new)`: dequeue, then enqueue at the new level. -/
def switch_queue (s : Sched) (task : task_ptr) (new : Int) : Option Sched :=
  match dequeue_task s task with
  | none => none
  | some s1 => enqueue_task s1 task new

/-- `demote_task(task)`: a task already at the bottom level is left alone. -/
def demote_task (s : Sched) (task : task_ptr) : Option Sched :=
  if (s.heap task).queue ≥ MLFQ_QUEUES - 1 then some s
  else switch_queue s task ((s.heap task).queue + 1)

/-- `promote_task(task)`. -/
def promote_task (s : Sched) (task : task_ptr) : Option Sched :=
  switch_queue s task ((s.heap task).queue - 1)

/-! ## Dispatcher -/

/-- `first_queue_runnable(queue, offset)`: the first RUNNABLE entry at a position
`≥ offset`, or `NULL` (`none`). -/
def first_queue_runnable (heap : task_ptr → task_t) (queue : List task_ptr) (offset : Nat) :
    Option task_ptr :=
  (queue.drop offset).find? (fun tmp => decide ((heap tmp).state = task_state.RUNNABLE))

/-- `first_queue_containing_runnable()`: the first queue (given by its index) in
which `first_queue_runnable(tmp, 0)` is not `NULL`; the final `ASSERT(0, ...)`
is the `none` result. -/
def first_queue_containing_runnable (s : Sched) : Option Nat :=
  s.queues.findIdx? (fun tmp => (first_queue_runnable s.heap tmp 0).isSome)

/-- The three attempts at the end of `next_runnable_task`, after `new_queue` has been found:
`same` is the pointer comparison `current_queue == new_queue`. -/
def round_robin (heap : task_ptr → task_t) (new_queue : List task_ptr) (same : Bool)
    (current_task_idx : Int) : Option task_ptr :=
  let in_same : Option task_ptr :=
    if same then
      let wrapped : Option task_ptr :=
        if current_task_idx + 1 ≥ (new_queue.length : Int) then
          first_queue_runnable heap new_queue 0
        else none
      match wrapped with
      | some valid => some valid
      | none => first_queue_runnable heap new_queue (current_task_idx + 1).toNat
    else none
  match in_same with
  | some valid => some valid
  | none => first_queue_runnable heap new_queue 0

/-- `next_runnable_task()`. The result is the returned pointer together with the
state left behind. Without tasking installed the C function executes a bare
`return;`, so no pointer is returned (inner `none`); the outer `none` is a
fatal `ASSERT`. `current_queue` is read before the demotion, so the comparison
`current_queue == new_queue` uses the level recorded before the demotion, and
`current_task_idx` is the position the task had before it. -/
def next_runnable_task (s : Sched) : Option (Option task_ptr × Sched) :=
  if !tasking_installed s then some (none, s)
  else
    match array_m_lookup s.queues (s.heap s.current_task).queue with
    | none => none
    | some current_queue =>
      let current_task_idx := array_m_index current_queue s.current_task
      if current_task_idx < 0 then none
      else
        let demoted : Option Sched :=
          if (s.heap s.current_task).state = task_state.RUNNABLE then
            demote_task s s.current_task
          else some s
        match demoted with
        | none => none
        | some s1 =>
          match first_queue_containing_runnable s1 with
          | none => none
          | some nq =>
            match s1.queues[nq]? with
            | none => none
            | some new_queue =>
              if new_queue.length = 0 then none
              else if new_queue.length ≥ 1 then
                let same := decide ((s.heap s.current_task).queue = (nq : Int))
                match round_robin s1.heap new_queue same current_task_idx with
                | some valid => some (some valid, s1)
                | none => none
              else none

/-- The search loop of `goto_pid`: every queue is visited; inside a queue the first task
with the wanted id is taken and the inner loop is left, while the outer loop goes on, so
a match in a later queue overrides an earlier one. -/
def find_pid (heap : task_ptr → task_t) (queues : List (List task_ptr)) (id : Int) :
    Option task_ptr :=
  queues.foldl
    (fun found tasks =>
      match tasks.find? (fun tmp => decide ((heap tmp).id = id)) with
      | some tmp => some tmp
      | none => found)
    none

/-- `goto_pid(id)`. The saved registers and the jump of `task_switch_real` are not part of
the state, and neither is the early return of a task that has just been resumed; what
remains is the `NULL` guard on `current_task` (the `queues` array is always allocated here)
and the update of `current_task`. -/
def goto_pid (s : Sched) (id : Int) : Option Sched :=
  if s.current_task = 0 then some s
  else
    match find_pid s.heap s.queues id with
    | none => none
    | some tmp => some { s with current_task := tmp }

/-- `task_switch()`. Dereferencing the pointer of a `next_runnable_task` that returned no
value has no defined behaviour; it is counted as a failure. -/
def task_switch (s : Sched) : Option Sched :=
  match next_runnable_task s with
  | none => none
  | some (none, _) => none
  | some (some next, s1) =>
    if (s1.heap next).state = task_state.RUNNABLE then goto_pid s1 (s1.heap next).id
    else none

/-- The dispatcher invoked `n` times in a row: `n` calls of `task_switch`. -/
def dispatches : Nat → Sched → Option Sched
  | 0, s => some s
  | n + 1, s =>
    match task_switch s with
    | none => none
    | some s1 => dispatches n s1

/-! ## Blocking, waking and reaping -/

/-- `block_task(task, reason)`. -/
def block_task (s : Sched) (task : task_ptr) (reason : task_state) : Option Sched :=
  if !tasking_installed s then some s
  else task_switch { s with heap := store s.heap task { s.heap task with state := reason } }

/-- `unblock_task(task)`. -/
def unblock_task (s : Sched) (task : task_ptr) : Sched :=
  if !tasking_installed s then s
  else { s with heap := store s.heap task { s.heap task with state := task_state.RUNNABLE } }

/-- The body of the inner loop of `update_blocked_tasks` for one entry; `now` is the value
of `time()` and `haskey` that of `haskey()`. -/
def update_blocked_task (now : Nat) (haskey : Bool) (s : Sched) (task : task_ptr) : Sched :=
  if (s.heap task).state = task_state.PIT_WAIT then
    if now ≥ (s.heap task).wake_timestamp then unblock_task s task else s
  else if (s.heap task).state = task_state.KB_WAIT then
    if haskey then unblock_task s task else s
  else s

/-- `update_blocked_tasks()`: both loops run over queues that the body never changes. -/
def update_blocked_tasks (now : Nat) (haskey : Bool) (s : Sched) : Sched :=
  if !tasking_installed s then s
  else s.queues.foldl (fun s1 tmp => tmp.foldl (update_blocked_task now haskey) s1) s

/-- The inner loop of `reap` on one queue, `for (j; j < queue->size; j++)`, started at
index `j`: `queue[j]?` is `none` exactly when the loop test fails. The queue shrinks while
it is scanned and `j` is incremented after every iteration, removal or not; `fuel` bounds
the number of iterations and `queue.length - j` iterations always suffice
(`reap_queue_fuel`). -/
def reap_queue (heap : task_ptr → task_t) : Nat → Nat → List task_ptr → List task_ptr
  | 0, _, queue => queue
  | fuel + 1, j, queue =>
    match queue[j]? with
    | none => queue
    | some task =>
      if (heap task).state = task_state.ZOMBIE then
        reap_queue heap fuel (j + 1) (array_m_remove queue j)
      else reap_queue heap fuel (j + 1) queue

/-- One pass of the outer `while (1)` loop of `reap`, up to the `sys_yield`. -/
def reap_scan (s : Sched) : Sched :=
  { s with queues := s.queues.map (fun queue => reap_queue s.heap queue.length 0 queue) }

/-! ## Vocabulary of the specification -/

/-- The entries of queue level `k`, in queue order (empty when there is no such level). -/
def level (s : Sched) (k : Nat) : List task_ptr :=
  (s.queues[k]?).getD []

/-- The queue-membership invariant of the data model: there are sixteen levels, no level
holds a task twice, and a task held by level `k` records `k` as its priority level; a
queued task therefore occurs exactly once across the sixteen queues
(`QueueInv.flatten_nodup`). -/
def QueueInv (s : Sched) : Prop :=
  s.queues.length = 16 ∧
    ∀ k, k < s.queues.length →
      (level s k).Nodup ∧ ∀ p, p ∈ level s k → (s.heap p).queue = (k : Int)

/-- The current task is present in the queue of its recorded level. -/
def CurrentQueued (s : Sched) : Prop :=
  0 ≤ (s.heap s.current_task).queue ∧
    s.current_task ∈ level s (s.heap s.current_task).queue.toNat

/-- A well-formed scheduler state: sixteen queues obeying the queue-membership invariant,
and the current task present in the queue of its recorded level. -/
def WellFormed (s : Sched) : Prop :=
  QueueInv s ∧ CurrentQueued s

/-- In queue `q`, `t` is the first RUNNABLE entry at a position `≥ off`. -/
def FirstRunnableFrom (heap : task_ptr → task_t) (q : List task_ptr) (off : Nat)
    (t : task_ptr) : Prop :=
  ∃ j, off ≤ j ∧ q[j]? = some t ∧ (heap t).state = task_state.RUNNABLE ∧
    ∀ i u, off ≤ i → i < j → q[i]? = some u → (heap u).state ≠ task_state.RUNNABLE

/-- Queue `q` has no RUNNABLE entry at a position `≥ off`. -/
def NoRunnableFrom (heap : task_ptr → task_t) (q : List task_ptr) (off : Nat) : Prop :=
  ∀ i u, off ≤ i → q[i]? = some u → (heap u).state ≠ task_state.RUNNABLE

/-- Level `F` is the lowest-indexed level that contains a RUNNABLE task. -/
def FirstRunnableLevel (s : Sched) (F : Nat) : Prop :=
  F < s.queues.length ∧
    (∃ p, p ∈ level s F ∧ (s.heap p).state = task_state.RUNNABLE) ∧
    ∀ k, k < F → ∀ p, p ∈ level s k → (s.heap p).state ≠ task_state.RUNNABLE

/-- The effect that the specification prescribes for one sentinel scan on a single task
record: a timer wait ends once `now` has reached the deadline, an input wait ends when
input is ready, and nothing else changes. -/
def wake (now : Nat) (haskey : Bool) (t : task_t) : task_t :=
  if t.state = task_state.PIT_WAIT then
    if now ≥ t.wake_timestamp then { t with state := task_state.RUNNABLE } else t
  else if t.state = task_state.KB_WAIT then
    if haskey then { t with state := task_state.RUNNABLE } else t
  else t

/-! ## Concrete scheduler states -/

/-- Tasks A, B, C at addresses 1, 2, 3 (every record is RUNNABLE at level 0, its id being
its address), queued at level 0 in that order, with A the current task. -/
def scenario_abc : Sched where
  heap := fun p => ⟨(p : Int), task_state.RUNNABLE, 0, 0⟩
  queues := [1, 2, 3] :: List.replicate 15 []
  current_task := 1

/-- The state `scenario_abc` after the dispatcher has demoted A to level 1. -/
def scenario_abc_demoted : Sched where
  heap := store scenario_abc.heap 1 ⟨1, task_state.RUNNABLE, 1, 0⟩
  queues := [2, 3] :: [1] :: List.replicate 14 []
  current_task := 1

/-- As `scenario_abc`, but the current task A waits for input. -/
def scenario_waiting : Sched where
  heap := fun p =>
    ⟨(p : Int), if p = 1 then task_state.KB_WAIT else task_state.RUNNABLE, 0, 0⟩
  queues := [1, 2, 3] :: List.replicate 15 []
  current_task := 1

/-- The state `scenario_abc` after A has blocked on input and B has been dispatched. -/
def scenario_abc_blocked : Sched where
  heap := store scenario_abc.heap 1 ⟨1, task_state.KB_WAIT, 0, 0⟩
  queues := [1, 2, 3] :: List.replicate 15 []
  current_task := 2

/-- The state `scenario_abc_blocked` after one more dispatch: B is demoted and C runs. -/
def scenario_abc_blocked_next : Sched where
  heap := store scenario_abc_blocked.heap 2 ⟨2, task_state.RUNNABLE, 1, 0⟩
  queues := [1, 3] :: [2] :: List.replicate 14 []
  current_task := 3

/-- Task D at address 4 waits at level 0 for the timer deadline `50`; the current task at
address 1 is RUNNABLE. -/
def scenario_timer : Sched where
  heap := fun p =>
    if p = 4 then ⟨4, task_state.PIT_WAIT, 0, 50⟩ else ⟨(p : Int), task_state.RUNNABLE, 0, 0⟩
  queues := [1, 4] :: List.replicate 15 []
  current_task := 1

/-- Two ZOMBIE records at adjacent positions (addresses 1 and 2) in front of the RUNNABLE
current task (address 3), all at level 0. -/
def scenario_zombies : Sched where
  heap := fun p =>
    ⟨(p : Int), if p = 1 ∨ p = 2 then task_state.ZOMBIE else task_state.RUNNABLE, 0, 0⟩
  queues := [1, 2, 3] :: List.replicate 15 []
  current_task := 3

/-! ## Task creation -/

/-- Modelled from the spec: the enumerator of `task_state` whose value is `0`, the state
that the `memset(task, 0, sizeof(task_t))` of `create_process` and `tasking_install`
leaves in a new record. `task.h` is missing from the sources; the spec makes a fresh task
RUNNABLE, and `task.c` never assigns a state to the kernel task it dispatches. -/
def zero_task_state : task_state := task_state.RUNNABLE

/-- The scheduler globals together with the static counter `next_pid` of `task.c`. -/
structure Kernel where
  sched : Sched
  next_pid : Int

/-- The value stored in a 32-bit `int` for the arithmetic result `x` (two's complement, as
on the i386 target of the kernel). -/
def wrap_int (x : Int) : Int :=
  (x + 2147483648) % 4294967296 - 2147483648

/-- `create_process(name, eip, wants_stack)` as executed by the creating task; `task` is the
address returned by `kmalloc`. The record is zeroed, then `id = next_pid++` and `queue = 0`;
the test `current_task == parent` holds for the creator, which returns there, so the state
is the one left by `memset`. (The statements behind the test are reached only by a task
resumed at the saved `eip`.) -/
def create_process (k : Kernel) (task : task_ptr) : task_ptr × Kernel :=
  (task,
    { sched := { k.sched with
        heap := store k.sched.heap task ⟨k.next_pid, zero_task_state, 0, 0⟩ }
      next_pid := wrap_int (k.next_pid + 1) })

/-- `add_process(task)`. -/
def add_process (s : Sched) (task : task_ptr) : Option Sched :=
  if !tasking_installed s then some s
  else enqueue_task s task 0

/-- `fork(name)` as executed by the creating task (`current_task == parent`); `task` is the
address that `kmalloc` returns inside `create_process`. The result is the returned
`child->id` with the state left behind; the child's saved registers are not part of the
state. -/
def fork (k : Kernel) (task : task_ptr) : Option (Int × Kernel) :=
  match add_process (create_process k task).2.sched (create_process k task).1 with
  | none => none
  | some s2 =>
    some ((s2.heap (create_process k task).1).id,
      { sched := s2, next_pid := (create_process k task).2.next_pid })

/-- A run of `create_process` calls, one per address of the list, in order; the result
lists the ids of the created tasks in creation order. -/
def create_processes : Kernel → List task_ptr → List Int × Kernel
  | k, [] => ([], k)
  | k, task :: rest =>
    (((create_process k task).2.sched.heap (create_process k task).1).id ::
        (create_processes (create_process k task).2 rest).1,
      (create_processes (create_process k task).2 rest).2)

/-- `tasking_install()` as executed by the kernel task; the four addresses are those
returned by `kmalloc` for the kernel task and for the tasks of the three `fork` calls. A
`fork` returning `0` to the creator would send the creator itself into the endless loop of
the new task (`if (!fork(...)) idle();`); that is counted as no result. -/
def tasking_install (k : Kernel) (kernel idle reaper iosentinel : task_ptr) : Option Kernel :=
  if tasking_installed k.sched then some k
  else
    match enqueue_task
        ⟨store k.sched.heap kernel ⟨k.next_pid, zero_task_state, 0, 0⟩,
          List.replicate MLFQ_QUEUES.toNat [], kernel⟩ kernel 0 with
    | none => none
    | some s1 =>
      match fork ⟨s1, wrap_int (k.next_pid + 1)⟩ idle with
      | none => none
      | some (id1, k1) =>
        if id1 = 0 then none
        else
          match fork k1 reaper with
          | none => none
          | some (id2, k2) =>
            if id2 = 0 then none
            else
              match fork k2 iosentinel with
              | none => none
              | some (id3, k3) => if id3 = 0 then none else some k3

/-- `_kill()`. -/
def _kill (s : Sched) : Option Sched :=
  if !tasking_installed s then some s
  else block_task s s.current_task task_state.ZOMBIE

/-- Every queued task has an id that the counter `next_pid` has already passed. -/
def IdsBelowCounter (k : Kernel) : Prop :=
  ∀ p, p ∈ k.sched.queues.flatten → (k.sched.heap p).id < k.next_pid

/-- The queued tasks have pairwise distinct ids. -/
def DistinctIds (s : Sched) : Prop :=
  ∀ p, p ∈ s.queues.flatten → ∀ q, q ∈ s.queues.flatten →
    (s.heap p).id = (s.heap q).id → p = q

/-- The state before `tasking_install`: no queue yet, no current task, `next_pid = 1`. -/
def boot_kernel : Kernel where
  sched := ⟨fun _ => ⟨0, zero_task_state, 0, 0⟩, [], 0⟩
  next_pid := 1

/-- The scan of `reap_queue` in list form: the entry behind a removed ZOMBIE takes its
place and is passed over. -/
def reap_list (heap : task_ptr → task_t) : List task_ptr → List task_ptr
  | [] => []
  | [a] => if (heap a).state = task_state.ZOMBIE then [] else [a]
  | a :: b :: rest =>
    if (heap a).state = task_state.ZOMBIE then b :: reap_list heap rest
    else a :: reap_list heap (b :: rest)

/-! ## Critical-section events

The calls of `kernel_begin_critical` and `kernel_end_critical` and the writes to task
records and queues, in the order in which an operation of `task.c` performs them. An
operation that halts in an `ASSERT` contributes the events up to the halt. -/

/-- The events of interest for the critical-section discipline: `enter` is a call of
`kernel_begin_critical`, `leave` a call of `kernel_end_critical`, `write_task task` a write to
the state or the priority level of the record at `task`, `write_queue` an insertion into or
a removal from a queue (or the creation of the queues), `dispatch` a call of `task_switch`. -/
inductive guard_event where
  | enter
  | leave
  | write_task (task : task_ptr)
  | write_queue
  | dispatch
deriving DecidableEq

/-- Whether the guard is held after the events, when it was held (`h`) or not before them:
the guard masks interrupts and is not reentrant, so it is held exactly when the last guard
event was an `enter`. -/
def guard_held : Bool → List guard_event → Bool
  | h, [] => h
  | _, guard_event.enter :: es => guard_held true es
  | _, guard_event.leave :: es => guard_held false es
  | h, _ :: es => guard_held h es

/-- Task A at address 1 is the current task and the only RUNNABLE one; task B at address 2
waits for input; both are at level 0. -/
def scenario_lone : Sched where
  heap := fun p =>
    ⟨(p : Int), if p = 1 then task_state.RUNNABLE else task_state.KB_WAIT, 0, 0⟩
  queues := [1, 2] :: List.replicate 15 []
  current_task := 1

/-! ## Basic facts about the collections and the queue primitives -/

theorem eraseIdx_indexOf (a : List task_ptr) (p : task_ptr) :
    a.eraseIdx (a.indexOf p) = a.erase p := by
  induction a with
  | nil => simp
  | cons x xs ih =>
    by_cases h : x = p
    · subst h; simp [List.indexOf_cons]
    · have h' : (x == p) = false := by simpa using h
      simp [List.indexOf_cons, h', List.erase_cons, ih]

theorem array_m_lookup_natCast {α : Type} (a : List α) (k : Nat) :
    array_m_lookup a (k : Int) = a[k]? := by
  simp [array_m_lookup]

theorem array_m_index_neg (a : List task_ptr) (p : task_ptr) :
    array_m_index a p < 0 ↔ p ∉ a := by
  unfold array_m_index
  split_ifs with h
  · simp [h]
  · simp [h]

theorem array_m_remove_index (a : List task_ptr) (p : task_ptr) (h : p ∈ a) :
    array_m_remove a (array_m_index a p) = a.erase p := by
  simp [array_m_remove, array_m_index, h, eraseIdx_indexOf]
  
theorem level_eq_of_getElem? {s : Sched} {k : Nat} {q : List task_ptr}
    (h : s.queues[k]? = some q) : level s k = q := by
  simp [level, h]

theorem getElem?_eq_level {s : Sched} {k : Nat} (h : k < s.queues.length) :
    s.queues[k]? = some (level s k) := by
  simp [level, List.getElem?_eq_getElem h]

theorem level_of_le {s : Sched} {k : Nat} (h : s.queues.length ≤ k) : level s k = [] := by
  simp [level, List.getElem?_eq_none h]

theorem level_set (s : Sched) (k j : Nat) (q : List task_ptr) (h : k < s.queues.length)
    (hp : task_ptr → task_t) (c : task_ptr) :
    level { heap := hp, queues := s.queues.set k q, current_task := c } j =
      if j = k then q else level s j := by
  unfold level
  simp only [List.getElem?_set]
  by_cases hjk : k = j
  · subst hjk; simp [h]
  · have : ¬ j = k := fun e => hjk e.symm
    simp [hjk, this]

/-- What `enqueue_task` computes for a valid level. -/
theorem enqueue_task_valid (s : Sched) (task : task_ptr) (k : Nat) (h : k < s.queues.length)
    (hk : k < 16) :
    enqueue_task s task (k : Int) = some
      { heap := store s.heap task { s.heap task with queue := (k : Int) }
        queues := s.queues.set k (level s k ++ [task])
        current_task := s.current_task } := by
  have h1 : ¬ ((k : Int) < 0 ∨ (k : Int) ≥ MLFQ_QUEUES) := by
    simp only [MLFQ_QUEUES]; omega
  simp [enqueue_task, h1, array_m_lookup_natCast, getElem?_eq_level h, array_m_insert]

theorem dequeue_task_valid (s : Sched) (task : task_ptr) (k : Nat) (h : k < s.queues.length)
    (hk : k < 16) (hq : (s.heap task).queue = (k : Int)) (hmem : task ∈ level s k) :
    dequeue_task s task = some
      { heap := s.heap
        queues := s.queues.set k ((level s k).erase task)
        current_task := s.current_task } := by
  have h1 : ¬ ((k : Int) < 0 ∨ (k : Int) ≥ MLFQ_QUEUES) := by
    simp only [MLFQ_QUEUES]; omega
  have h2 : ¬ array_m_index (level s k) task < 0 := by
    rw [array_m_index_neg]; simpa using hmem
  simp [dequeue_task, hq, h1, array_m_lookup_natCast, getElem?_eq_level h, h2,
    array_m_remove_index _ _ hmem]


theorem store_same (heap : task_ptr → task_t) (p : task_ptr) (v : task_t) :
    store heap p v p = v := by
  simp [store]

theorem store_other (heap : task_ptr → task_t) (p q : task_ptr) (v : task_t) (h : q ≠ p) :
    store heap p v q = heap q := by
  simp [store, h]

/-- C6: with the sixteen queues in place, `enqueue_task(task, level)` halts exactly when
`level` is outside `[0, 15]`; otherwise queue `level` becomes its previous contents followed
by `task`, the task records `level` as its priority level, and every other queue, every
other task record and the current task are unchanged. -/
theorem C6_enqueue_task_contract (s : Sched) (task : task_ptr) (lvl : Int)
    (h16 : s.queues.length = 16) :
    (enqueue_task s task lvl = none ↔ (lvl < 0 ∨ 15 < lvl)) ∧
    (0 ≤ lvl → lvl ≤ 15 →
      ∃ s', enqueue_task s task lvl = some s' ∧
        level s' lvl.toNat = level s lvl.toNat ++ [task] ∧
        (s'.heap task).queue = lvl ∧
        (∀ k, k ≠ lvl.toNat → level s' k = level s k) ∧
        (∀ p, p ≠ task → s'.heap p = s.heap p) ∧
        (s'.heap task).state = (s.heap task).state ∧
        s'.current_task = s.current_task) := by
  have key : 0 ≤ lvl → lvl ≤ 15 →
      ∃ s', enqueue_task s task lvl = some s' ∧
        level s' lvl.toNat = level s lvl.toNat ++ [task] ∧
        (s'.heap task).queue = lvl ∧
        (∀ k, k ≠ lvl.toNat → level s' k = level s k) ∧
        (∀ p, p ≠ task → s'.heap p = s.heap p) ∧
        (s'.heap task).state = (s.heap task).state ∧
        s'.current_task = s.current_task := by
    intro h0 h15
    obtain ⟨k, rfl⟩ := Int.eq_ofNat_of_zero_le h0
    have hk : k < 16 := by omega
    have hlen : k < s.queues.length := by omega
    refine ⟨_, enqueue_task_valid s task k hlen hk, ?_, ?_, ?_, ?_, ?_, rfl⟩
    · simp [level_set s k _ _ hlen]
    · simp [store_same]
    · intro j hj
      simp at hj
      simp [level_set s k _ _ hlen, hj]
    · intro p hp
      simp [store_other _ _ _ _ hp]
    · simp [store_same]
  refine ⟨?_, key⟩
  constructor
  · intro hnone
    by_contra hcon
    obtain ⟨s', hs', _⟩ := key (by omega) (by omega)
    rw [hnone] at hs'
    cases hs'
  · intro hbad
    have : lvl < 0 ∨ lvl ≥ MLFQ_QUEUES := by
      simp only [MLFQ_QUEUES]; omega
    simp [enqueue_task, this]

/-- C7: with the sixteen queues in place, `dequeue_task(task)` halts exactly when the
task's recorded level is outside `[0, 15]` or the task does not occur in the queue of that
level; otherwise the first occurrence of the task is removed from that queue, the entries
in front of it and behind it keep their order, and every other queue, the task records and
the current task are unchanged. -/
theorem C7_dequeue_task_contract (s : Sched) (task : task_ptr)
    (h16 : s.queues.length = 16) :
    (dequeue_task s task = none ↔
      ((s.heap task).queue < 0 ∨ 15 < (s.heap task).queue ∨
        task ∉ level s (s.heap task).queue.toNat)) ∧
    (0 ≤ (s.heap task).queue → (s.heap task).queue ≤ 15 →
      task ∈ level s (s.heap task).queue.toNat →
      ∃ s' pre post, dequeue_task s task = some s' ∧
        level s (s.heap task).queue.toNat = pre ++ task :: post ∧
        task ∉ pre ∧
        level s' (s.heap task).queue.toNat = pre ++ post ∧
        (∀ k, k ≠ (s.heap task).queue.toNat → level s' k = level s k) ∧
        s'.heap = s.heap ∧ s'.current_task = s.current_task) := by
  have key : 0 ≤ (s.heap task).queue → (s.heap task).queue ≤ 15 →
      task ∈ level s (s.heap task).queue.toNat →
      ∃ s' pre post, dequeue_task s task = some s' ∧
        level s (s.heap task).queue.toNat = pre ++ task :: post ∧
        task ∉ pre ∧
        level s' (s.heap task).queue.toNat = pre ++ post ∧
        (∀ k, k ≠ (s.heap task).queue.toNat → level s' k = level s k) ∧
        s'.heap = s.heap ∧ s'.current_task = s.current_task := by
    intro h0 h15 hmem
    obtain ⟨k, hk⟩ := Int.eq_ofNat_of_zero_le h0
    rw [hk] at hmem h15 ⊢
    simp only [Int.toNat_ofNat] at hmem ⊢
    have hk16 : k < 16 := by omega
    have hlen : k < s.queues.length := by omega
    obtain ⟨pre, post, hpre, hsplit, herase⟩ := List.exists_erase_eq hmem
    refine ⟨_, pre, post, dequeue_task_valid s task k hlen hk16 hk hmem, hsplit, hpre, ?_, ?_,
      rfl, rfl⟩
    · simp [level_set s k _ _ hlen, herase]
    · intro j hj
      simp [level_set s k _ _ hlen, hj]
  refine ⟨?_, key⟩
  constructor
  · intro hnone
    by_contra hcon
    push_neg at hcon
    obtain ⟨s', _, _, hs', _⟩ := key (by omega) (by omega) hcon.2.2
    rw [hnone] at hs'
    cases hs'
  · rintro (hneg | hbig | hmem)
    · simp [dequeue_task, hneg]
    · have : (s.heap task).queue ≥ MLFQ_QUEUES := by
        simp only [MLFQ_QUEUES]; omega
      simp [dequeue_task, this]
    · by_cases hr : (s.heap task).queue < 0 ∨ (s.heap task).queue ≥ MLFQ_QUEUES
      · simp [dequeue_task, hr]
      · simp only [MLFQ_QUEUES] at hr
        push_neg at hr
        obtain ⟨k, hk⟩ := Int.eq_ofNat_of_zero_le hr.1
        rw [hk] at hmem
        simp only [Int.toNat_ofNat] at hmem
        have hlen : k < s.queues.length := by omega
        have h1 : ¬ ((k : Int) < 0 ∨ (k : Int) ≥ MLFQ_QUEUES) := by
          simp only [MLFQ_QUEUES]; omega
        have h2 : array_m_index (level s k) task < 0 := by
          rw [array_m_index_neg]; exact hmem
        simp [dequeue_task, hk, h1, array_m_lookup_natCast, getElem?_eq_level hlen, h2]

theorem first_queue_runnable_some {heap : task_ptr → task_t} {q : List task_ptr} {off : Nat}
    {t : task_ptr} (h : first_queue_runnable heap q off = some t) :
    FirstRunnableFrom heap q off t := by
  unfold first_queue_runnable at h
  rw [List.find?_eq_some] at h
  obtain ⟨ht, as, bs, hsplit, has⟩ := h
  have hget : ∀ n, q[off + n]? = (as ++ t :: bs)[n]? := by
    intro n
    rw [← hsplit, List.getElem?_drop]
  refine ⟨off + as.length, Nat.le_add_right _ _, ?_, by simpa using ht, ?_⟩
  · rw [hget, List.getElem?_append_right (Nat.le_refl _)]; simp
  · intro i u hoi hij hu
    obtain ⟨n, rfl⟩ := Nat.exists_eq_add_of_le hoi
    have hn : n < as.length := by omega
    rw [hget, List.getElem?_append_left hn] at hu
    have := has u (List.getElem?_mem hu)
    simpa using this

theorem first_queue_runnable_none {heap : task_ptr → task_t} {q : List task_ptr} {off : Nat}
    (h : first_queue_runnable heap q off = none) : NoRunnableFrom heap q off := by
  unfold first_queue_runnable at h
  rw [List.find?_eq_none] at h
  intro i u hoi hu
  obtain ⟨n, rfl⟩ := Nat.exists_eq_add_of_le hoi
  have hmem : u ∈ q.drop off := by
    apply List.getElem?_mem (n := n)
    rw [List.getElem?_drop]; exact hu
  simpa using h u hmem

theorem first_queue_runnable_zero_isSome (heap : task_ptr → task_t) (q : List task_ptr) :
    (first_queue_runnable heap q 0).isSome = true ↔
      ∃ p, p ∈ q ∧ (heap p).state = task_state.RUNNABLE := by
  unfold first_queue_runnable
  simp [List.find?_isSome]

theorem first_queue_containing_runnable_some {s : Sched} {F : Nat}
    (h : first_queue_containing_runnable s = some F) : FirstRunnableLevel s F := by
  unfold first_queue_containing_runnable at h
  rw [List.findIdx?_eq_some_iff_getElem] at h
  obtain ⟨hF, hp, hlt⟩ := h
  refine ⟨hF, ?_, ?_⟩
  · have := (first_queue_runnable_zero_isSome s.heap s.queues[F]).1 hp
    simpa [level, List.getElem?_eq_getElem hF] using this
  · intro k hk p hpk hrun
    have hkl : k < s.queues.length := by omega
    apply hlt k hk
    rw [first_queue_runnable_zero_isSome]
    refine ⟨p, ?_, hrun⟩
    simpa [level, List.getElem?_eq_getElem hkl] using hpk

theorem first_queue_containing_runnable_of_level {s : Sched} {F : Nat}
    (h : FirstRunnableLevel s F) : first_queue_containing_runnable s = some F := by
  obtain ⟨hF, ⟨p, hp, hrun⟩, hlt⟩ := h
  unfold first_queue_containing_runnable
  rw [List.findIdx?_eq_some_iff_getElem]
  refine ⟨hF, ?_, ?_⟩
  · rw [first_queue_runnable_zero_isSome]
    refine ⟨p, ?_, hrun⟩
    simpa [level, List.getElem?_eq_getElem hF] using hp
  · intro k hk hcon
    have hkl : k < s.queues.length := by omega
    rw [first_queue_runnable_zero_isSome] at hcon
    obtain ⟨u, hu, hur⟩ := hcon
    exact hlt k hk u (by simpa [level, List.getElem?_eq_getElem hkl] using hu) hur

theorem first_queue_containing_runnable_none {s : Sched}
    (h : first_queue_containing_runnable s = none) :
    ∀ k p, p ∈ level s k → (s.heap p).state ≠ task_state.RUNNABLE := by
  unfold first_queue_containing_runnable at h
  rw [List.findIdx?_eq_none_iff] at h
  intro k p hp hrun
  by_cases hk : k < s.queues.length
  · have hq := h s.queues[k] (List.getElem_mem hk)
    have : (first_queue_runnable s.heap s.queues[k] 0).isSome = true := by
      rw [first_queue_runnable_zero_isSome]
      exact ⟨p, by simpa [level, List.getElem?_eq_getElem hk] using hp, hrun⟩
    rw [this] at hq
    cases hq
  · rw [level_of_le (by omega)] at hp
    cases hp

theorem FirstRunnableLevel_unique {s : Sched} {F G : Nat} (hF : FirstRunnableLevel s F)
    (hG : FirstRunnableLevel s G) : F = G := by
  have h1 := first_queue_containing_runnable_of_level hF
  have h2 := first_queue_containing_runnable_of_level hG
  rw [h1] at h2
  exact Option.some.inj h2

theorem array_m_lookup_some {α : Type} {a : List α} {i : Int} {x : α}
    (h : array_m_lookup a i = some x) : ∃ k : Nat, i = (k : Int) ∧ a[k]? = some x := by
  unfold array_m_lookup at h
  split_ifs at h with hneg
  obtain ⟨k, rfl⟩ := Int.eq_ofNat_of_zero_le (by omega : 0 ≤ i)
  exact ⟨k, rfl, by simpa using h⟩

/-- The demotion step of `next_runnable_task`. -/
theorem next_runnable_task_inv {s s' : Sched} {t : task_ptr}
    (h : next_runnable_task s = some (some t, s')) :
    ∃ L : Nat, (s.heap s.current_task).queue = (L : Int) ∧ s.current_task ∈ level s L ∧
      (if (s.heap s.current_task).state = task_state.RUNNABLE then
          demote_task s s.current_task else some s) = some s' ∧
      ∃ F, first_queue_containing_runnable s' = some F ∧
        round_robin s'.heap (level s' F) (decide ((L : Int) = (F : Int)))
          (array_m_index (level s L) s.current_task) = some t := by
  unfold next_runnable_task at h
  by_cases hinst : (!tasking_installed s) = true
  · rw [if_pos hinst] at h; cases h
  rw [if_neg hinst] at h
  generalize hdem : (if (s.heap s.current_task).state = task_state.RUNNABLE then
          demote_task s s.current_task else some s) = dem at h ⊢
  cases hlook : array_m_lookup s.queues (s.heap s.current_task).queue with
  | none => rw [hlook] at h; cases h
  | some current_queue =>
    rw [hlook] at h
    obtain ⟨L, hL, hget⟩ := array_m_lookup_some hlook
    have hlev : level s L = current_queue := level_eq_of_getElem? hget
    simp only at h
    by_cases hidx : array_m_index current_queue s.current_task < 0
    · rw [if_pos hidx] at h; cases h
    rw [if_neg hidx] at h
    have hmem : s.current_task ∈ current_queue := by
      by_contra hcon
      exact hidx ((array_m_index_neg _ _).2 hcon)
    cases dem with
    | none => cases h
    | some s1 =>
      simp only at h
      cases hnq : first_queue_containing_runnable s1 with
      | none => rw [hnq] at h; cases h
      | some nq =>
        rw [hnq] at h
        simp only at h
        cases hnew : s1.queues[nq]? with
        | none => rw [hnew] at h; cases h
        | some new_queue =>
          rw [hnew] at h
          simp only at h
          by_cases hlen : new_queue.length = 0
          · rw [if_pos hlen] at h; cases h
          rw [if_neg hlen, if_pos (by omega : new_queue.length ≥ 1)] at h
          cases hvalid : round_robin s1.heap new_queue
              (decide ((s.heap s.current_task).queue = (nq : Int)))
              (array_m_index current_queue s.current_task) with
          | none => rw [hvalid] at h; cases h
          | some valid =>
            rw [hvalid] at h
            simp only [Option.some.injEq, Prod.mk.injEq] at h
            obtain ⟨rfl, rfl⟩ := h
            refine ⟨L, hL, hlev ▸ hmem, rfl, nq, hnq, ?_⟩
            rw [level_eq_of_getElem? hnew, hlev, ← hL]
            exact hvalid

theorem FirstRunnableFrom.mem {heap : task_ptr → task_t} {q : List task_ptr} {off : Nat}
    {t : task_ptr} (h : FirstRunnableFrom heap q off t) :
    t ∈ q ∧ (heap t).state = task_state.RUNNABLE := by
  obtain ⟨j, _, hj, hrun, _⟩ := h
  exact ⟨List.getElem?_mem hj, hrun⟩

theorem first_queue_runnable_zero_exists {heap : task_ptr → task_t} {q : List task_ptr}
    (h : ∃ p, p ∈ q ∧ (heap p).state = task_state.RUNNABLE) :
    ∃ t, first_queue_runnable heap q 0 = some t := by
  have := (first_queue_runnable_zero_isSome heap q).2 h
  exact Option.isSome_iff_exists.1 this

theorem first_queue_runnable_past_end (heap : task_ptr → task_t) (q : List task_ptr)
    (off : Nat) (h : q.length ≤ off) : first_queue_runnable heap q off = none := by
  unfold first_queue_runnable
  rw [List.drop_of_length_le h]
  rfl

theorem round_robin_other (heap : task_ptr → task_t) (q : List task_ptr) (idx : Int) :
    round_robin heap q false idx = first_queue_runnable heap q 0 := by
  simp [round_robin]

theorem round_robin_same (heap : task_ptr → task_t) (q : List task_ptr) (i : Nat) :
    round_robin heap q true (i : Int) =
      match first_queue_runnable heap q (i + 1) with
      | some valid => some valid
      | none => first_queue_runnable heap q 0 := by
  unfold round_robin
  have hcast : ((i : Int) + 1).toNat = i + 1 := by omega
  simp only [if_true, hcast]
  by_cases hlast : (i : Int) + 1 ≥ (q.length : Int)
  · have hpast := first_queue_runnable_past_end heap q (i + 1) (by omega)
    rw [if_pos hlast, hpast]
    cases h0 : first_queue_runnable heap q 0 <;> simp [hpast, h0]
  · rw [if_neg hlast]

theorem round_robin_sound {heap : task_ptr → task_t} {q : List task_ptr} {same : Bool}
    {idx : Int} {t : task_ptr} (h : round_robin heap q same idx = some t) :
    t ∈ q ∧ (heap t).state = task_state.RUNNABLE := by
  have key : ∀ off, first_queue_runnable heap q off = some t →
      t ∈ q ∧ (heap t).state = task_state.RUNNABLE :=
    fun off hh => (first_queue_runnable_some hh).mem
  unfold round_robin at h
  cases same
  · simp only [Bool.false_eq_true, if_false] at h
    exact key 0 h
  · simp only [if_true] at h
    cases ha : first_queue_runnable heap q 0 with
    | none =>
      rw [ha] at h
      cases hb : first_queue_runnable heap q (idx + 1).toNat with
      | none => rw [hb] at h; split_ifs at h
      | some v =>
        rw [hb] at h
        split_ifs at h <;> (cases h; exact key _ hb)
    | some u =>
      rw [ha] at h
      cases hb : first_queue_runnable heap q (idx + 1).toNat with
      | none =>
        rw [hb] at h
        split_ifs at h <;> (cases h; exact key _ ha)
      | some v =>
        rw [hb] at h
        split_ifs at h
        · cases h; exact key _ ha
        · cases h; exact key _ hb

theorem round_robin_exists (heap : task_ptr → task_t) (q : List task_ptr) (same : Bool)
    (idx : Int) (h : ∃ p, p ∈ q ∧ (heap p).state = task_state.RUNNABLE) :
    ∃ t, round_robin heap q same idx = some t := by
  obtain ⟨t0, ht0⟩ := first_queue_runnable_zero_exists h
  unfold round_robin
  simp only
  split
  · exact ⟨_, rfl⟩
  · exact ⟨t0, ht0⟩

theorem next_runnable_task_run {s s1 : Sched} {L F : Nat} {t : task_ptr}
    (hL : (s.heap s.current_task).queue = (L : Int)) (hmem : s.current_task ∈ level s L)
    (hdem : (if (s.heap s.current_task).state = task_state.RUNNABLE then
          demote_task s s.current_task else some s) = some s1)
    (hF : first_queue_containing_runnable s1 = some F)
    (ht : round_robin s1.heap (level s1 F) (decide ((L : Int) = (F : Int)))
          (array_m_index (level s L) s.current_task) = some t) :
    next_runnable_task s = some (some t, s1) := by
  have hLlen : L < s.queues.length := by
    by_contra hcon
    rw [level_of_le (by omega)] at hmem
    cases hmem
  have hinst : ¬ (!tasking_installed s) = true := by
    have : s.queues ≠ [] := by
      intro h0
      rw [h0] at hLlen
      simp at hLlen
    simpa [tasking_installed] using this
  have hFl := first_queue_containing_runnable_some hF
  have hidx : ¬ array_m_index (level s L) s.current_task < 0 := by
    rw [array_m_index_neg]; simpa using hmem
  have hne : ¬ (level s1 F).length = 0 := by
    obtain ⟨_, ⟨p, hp, _⟩, _⟩ := hFl
    intro h0
    rw [List.length_eq_zero] at h0
    rw [h0] at hp
    cases hp
  unfold next_runnable_task
  rw [if_neg hinst, hL, array_m_lookup_natCast, getElem?_eq_level hLlen]
  simp only
  rw [if_neg hidx, ← hL, hdem]
  simp only
  rw [hF]
  simp only
  rw [getElem?_eq_level hFl.1]
  simp only
  rw [if_neg hne, if_pos (by omega : (level s1 F).length ≥ 1), hL, ht]

theorem filter_erase_ne (l : List task_ptr) (a : task_ptr) :
    (l.erase a).filter (fun x => decide (x ≠ a)) = l.filter (fun x => decide (x ≠ a)) := by
  induction l with
  | nil => rfl
  | cons x xs ih =>
    by_cases h : x = a
    · subst h; simp
    · have h' : (x == a) = false := by simpa using h
      have hd : decide (x ≠ a) = true := by simpa using h
      rw [List.erase_cons, h', List.filter_cons, hd]
      simp only [Bool.false_eq_true, if_false, if_true]
      rw [List.filter_cons, hd, if_pos rfl, ih]

theorem demote_task_step (s : Sched) (task : task_ptr) (k : Nat)
    (hlen : s.queues.length = 16) (hq : (s.heap task).queue = (k : Int))
    (hmem : task ∈ level s k) (hk : k < 15) :
    demote_task s task = some
      { heap := store s.heap task { s.heap task with queue := ((k + 1 : Nat) : Int) }
        queues := (s.queues.set k ((level s k).erase task)).set (k + 1)
          (level s (k + 1) ++ [task])
        current_task := s.current_task } := by
  have hnot : ¬ (s.heap task).queue ≥ MLFQ_QUEUES - 1 := by
    rw [hq]; simp only [MLFQ_QUEUES]; omega
  have hklen : k < s.queues.length := by omega
  unfold demote_task switch_queue
  rw [if_neg hnot, dequeue_task_valid s task k hklen (by omega) hq hmem]
  simp only
  have hcast : (s.heap task).queue + 1 = ((k + 1 : Nat) : Int) := by rw [hq]; rfl
  rw [hcast, enqueue_task_valid _ task (k + 1) (by simp; omega) (by omega)]
  have hlev : level ⟨s.heap, s.queues.set k ((level s k).erase task), s.current_task⟩
      (k + 1) = level s (k + 1) := by
    rw [level_set s k (k + 1) _ hklen]; simp
  rw [hlev]

theorem level_after_demote (s : Sched) (k j : Nat) (hklen : k + 1 < s.queues.length)
    (q1 q2 : List task_ptr) (hp : task_ptr → task_t) (c : task_ptr) :
    level { heap := hp, queues := (s.queues.set k q1).set (k + 1) q2, current_task := c } j =
      if j = k + 1 then q2 else if j = k then q1 else level s j := by
  unfold level
  simp only [List.getElem?_set, List.length_set]
  by_cases h1 : j = k + 1
  · subst h1; simp [hklen]
  · by_cases h2 : j = k
    · subst h2
      have : j < s.queues.length := by omega
      simp [this]
    · have e1 : ¬ k + 1 = j := fun e => h1 e.symm
      have e2 : ¬ k = j := fun e => h2 e.symm
      simp [h1, h2, e1, e2]

theorem exists_first_runnable_level (s : Sched) (k : Nat) (p : task_ptr)
    (hp : p ∈ level s k) (hrun : (s.heap p).state = task_state.RUNNABLE) :
    ∃ F, first_queue_containing_runnable s = some F := by
  cases h : first_queue_containing_runnable s with
  | none => exact absurd hrun (first_queue_containing_runnable_none h k p hp)
  | some F => exact ⟨F, rfl⟩

/-- C1: on a state with sixteen queues whose current task is present in the queue of its
recorded level, a `next_runnable_task` that does not fail leaves the state produced by its
demotion step and returns a task that is RUNNABLE there and that belongs to the
lowest-indexed level containing a RUNNABLE task: no level of smaller index contains one. -/
theorem C1_next_runnable_task_selects_first_level (s s' : Sched) (t : task_ptr)
    (_h16 : s.queues.length = 16) (_hcur : CurrentQueued s)
    (h : next_runnable_task s = some (some t, s')) :
    (if (s.heap s.current_task).state = task_state.RUNNABLE then
        demote_task s s.current_task else some s) = some s' ∧
    (s'.heap t).state = task_state.RUNNABLE ∧
    ∃ F, FirstRunnableLevel s' F ∧ t ∈ level s' F := by
  obtain ⟨L, _, _, hdem, F, hF, hrr⟩ := next_runnable_task_inv h
  have hsound := round_robin_sound hrr
  exact ⟨hdem, hsound.2, F, first_queue_containing_runnable_some hF, hsound.1⟩

theorem WellFormed.level_lt {s : Sched} (hwf : WellFormed s) {L : Nat}
    (hL : (s.heap s.current_task).queue = (L : Int)) :
    s.current_task ∈ level s L ∧ L < 16 := by
  obtain ⟨⟨h16, _⟩, _, hmem⟩ := hwf
  rw [hL] at hmem
  simp only [Int.toNat_ofNat] at hmem
  refine ⟨hmem, ?_⟩
  by_contra hcon
  rw [level_of_le (by omega)] at hmem
  cases hmem

/-- C2: in a well-formed state whose current task is RUNNABLE at level `L`,
`next_runnable_task` succeeds, and afterwards the current task's level is `L + 1` when
`L < 15` and `15` when `L = 15`; when `L < 15` the task has left queue `L` and is the last
entry of queue `L + 1`; every other task record is untouched and, in every queue, the
other tasks are the same and in the same order. -/
theorem C2_preempted_task_demoted_one_level (s : Sched) (L : Nat) (hwf : WellFormed s)
    (hrun : (s.heap s.current_task).state = task_state.RUNNABLE)
    (hL : (s.heap s.current_task).queue = (L : Int)) :
    ∃ t s', next_runnable_task s = some (some t, s') ∧
      (s'.heap s.current_task).queue = (if L < 15 then (L : Int) + 1 else 15) ∧
      (L < 15 → s.current_task ∉ level s' L ∧
        level s' (L + 1) = level s (L + 1) ++ [s.current_task]) ∧
      (∀ p, p ≠ s.current_task → s'.heap p = s.heap p) ∧
      (∀ k, (level s' k).filter (fun p => decide (p ≠ s.current_task)) =
        (level s k).filter (fun p => decide (p ≠ s.current_task))) := by
  obtain ⟨hmem, hL16⟩ := hwf.level_lt hL
  have h16 : s.queues.length = 16 := hwf.1.1
  by_cases hlt : L < 15
  · have hstep := demote_task_step s s.current_task L h16 hL hmem hlt
    have hdem := (if_pos hrun : (if (s.heap s.current_task).state = task_state.RUNNABLE then
          demote_task s s.current_task else some s) = _).trans hstep
    have hlev := fun j => level_after_demote s L j (by omega) ((level s L).erase s.current_task)
      (level s (L + 1) ++ [s.current_task])
      (store s.heap s.current_task
        { s.heap s.current_task with queue := ((L + 1 : Nat) : Int) }) s.current_task
    obtain ⟨F, hF⟩ := exists_first_runnable_level _ (L + 1) s.current_task
      (by rw [hlev]; simp) (by simp [store_same, hrun])
    obtain ⟨t, ht⟩ := round_robin_exists _ (level _ F) (decide ((L : Int) = (F : Int)))
      (array_m_index (level s L) s.current_task) (first_queue_containing_runnable_some hF).2.1
    refine ⟨t, _, next_runnable_task_run hL hmem hdem hF ht, ?_, ?_, ?_, ?_⟩
    · simp [store_same, hlt]
    · intro _
      have hne : ¬ L = L + 1 := by omega
      rw [hlev, hlev, if_neg hne, if_pos rfl, if_pos rfl]
      exact ⟨(hwf.1.2 L (by omega)).1.not_mem_erase, rfl⟩
    · intro p hp
      simp [store_other _ _ _ _ hp]
    · intro k
      rw [hlev]
      by_cases h1 : k = L + 1
      · subst h1; simp [List.filter_append]
      · by_cases h2 : k = L
        · subst h2
          simp only [h1, if_false, if_true]
          exact filter_erase_ne _ _
        · simp [h1, h2]
  · have hL15 : L = 15 := by omega
    have hdem : (if (s.heap s.current_task).state = task_state.RUNNABLE then
          demote_task s s.current_task else some s) = some s := by
      rw [if_pos hrun]
      unfold demote_task
      rw [if_pos (by rw [hL, hL15]; simp [MLFQ_QUEUES])]
    obtain ⟨F, hF⟩ := exists_first_runnable_level s L s.current_task hmem hrun
    obtain ⟨t, ht⟩ := round_robin_exists s.heap (level s F) (decide ((L : Int) = (F : Int)))
      (array_m_index (level s L) s.current_task) (first_queue_containing_runnable_some hF).2.1
    refine ⟨t, s, next_runnable_task_run hL hmem hdem hF ht, ?_, ?_, ?_, ?_⟩
    · rw [hL, hL15]; simp
    · intro h; omega
    · intro p _; rfl
    · intro k; rfl

theorem array_m_index_of_getElem? {q : List task_ptr} {i : Nat} {p : task_ptr}
    (hnd : q.Nodup) (hi : q[i]? = some p) : array_m_index q p = (i : Int) := by
  obtain ⟨hlt, hget⟩ := List.getElem?_eq_some.1 hi
  have hmem : p ∈ q := List.getElem?_mem hi
  have := List.indexOf_getElem hnd i hlt
  rw [hget] at this
  simp [array_m_index, hmem, this]

/-- C4: in a well-formed state whose current task is not demoted (it is not RUNNABLE, or it
is at level 15) and sits at position `i` of level `L`, with `F` the first level containing
a RUNNABLE task, `next_runnable_task` leaves the state unchanged and returns: when `F = L`,
the first RUNNABLE entry of level `L` at a position greater than `i`, or, when there is
none, the first RUNNABLE entry of level `L`; when `F ≠ L`, the first RUNNABLE entry of
level `F`. -/
theorem C4_round_robin_without_demotion (s : Sched) (L i F : Nat) (hwf : WellFormed s)
    (hL : (s.heap s.current_task).queue = (L : Int))
    (hi : (level s L)[i]? = some s.current_task)
    (hnd : (s.heap s.current_task).state ≠ task_state.RUNNABLE ∨ L = 15)
    (hF : FirstRunnableLevel s F) :
    ∃ t, next_runnable_task s = some (some t, s) ∧
      (F = L →
        FirstRunnableFrom s.heap (level s L) (i + 1) t ∨
          (NoRunnableFrom s.heap (level s L) (i + 1) ∧
            FirstRunnableFrom s.heap (level s L) 0 t)) ∧
      (F ≠ L → FirstRunnableFrom s.heap (level s F) 0 t) := by
  obtain ⟨hmem, hL16⟩ := hwf.level_lt hL
  have h16 : s.queues.length = 16 := hwf.1.1
  have hdem : (if (s.heap s.current_task).state = task_state.RUNNABLE then
        demote_task s s.current_task else some s) = some s := by
    by_cases hrun : (s.heap s.current_task).state = task_state.RUNNABLE
    · rcases hnd with hnr | h15
      · exact absurd hrun hnr
      · rw [if_pos hrun]
        unfold demote_task
        rw [if_pos (by rw [hL, h15]; simp [MLFQ_QUEUES])]
    · rw [if_neg hrun]
  have hidx : array_m_index (level s L) s.current_task = (i : Int) :=
    array_m_index_of_getElem? (hwf.1.2 L (by omega)).1 hi
  have hFc := first_queue_containing_runnable_of_level hF
  obtain ⟨t, ht⟩ := round_robin_exists s.heap (level s F) (decide ((L : Int) = (F : Int)))
    (array_m_index (level s L) s.current_task) hF.2.1
  refine ⟨t, next_runnable_task_run hL hmem hdem hFc ht, ?_, ?_⟩
  · intro hFL
    subst hFL
    rw [hidx, decide_eq_true rfl, round_robin_same] at ht
    cases hnext : first_queue_runnable s.heap (level s F) (i + 1) with
    | some v =>
      rw [hnext] at ht
      cases ht
      exact Or.inl (first_queue_runnable_some hnext)
    | none =>
      rw [hnext] at ht
      exact Or.inr ⟨first_queue_runnable_none hnext, first_queue_runnable_some ht⟩
  · intro hFL
    have hne : ¬ ((L : Int) = (F : Int)) := by
      intro e; exact hFL (by exact_mod_cast e.symm)
    rw [decide_eq_false hne, round_robin_other] at ht
    exact first_queue_runnable_some ht

theorem mem_flatten_iff_level (s : Sched) (p : task_ptr) :
    p ∈ s.queues.flatten ↔ ∃ k, p ∈ level s k := by
  rw [List.mem_flatten]
  constructor
  · rintro ⟨q, hq, hp⟩
    obtain ⟨k, hk⟩ := List.mem_iff_getElem?.1 hq
    exact ⟨k, by rw [level_eq_of_getElem? hk]; exact hp⟩
  · rintro ⟨k, hp⟩
    by_cases hk : k < s.queues.length
    · refine ⟨level s k, ?_, hp⟩
      exact List.getElem?_mem (getElem?_eq_level hk)
    · rw [level_of_le (by omega)] at hp
      cases hp

theorem QueueInv.nodup {s : Sched} (h : QueueInv s) (k : Nat) : (level s k).Nodup := by
  by_cases hk : k < s.queues.length
  · exact (h.2 k hk).1
  · rw [level_of_le (by omega)]
    exact List.nodup_nil

theorem QueueInv.queue_eq {s : Sched} (h : QueueInv s) {k : Nat} {p : task_ptr}
    (hp : p ∈ level s k) : (s.heap p).queue = (k : Int) := by
  by_cases hk : k < s.queues.length
  · exact (h.2 k hk).2 p hp
  · rw [level_of_le (by omega)] at hp
    cases hp

theorem QueueInv.level_unique {s : Sched} (h : QueueInv s) {j k : Nat} {p : task_ptr}
    (hj : p ∈ level s j) (hk : p ∈ level s k) : j = k := by
  have h1 := h.queue_eq hj
  have h2 := h.queue_eq hk
  rw [h1] at h2
  exact_mod_cast h2

theorem enqueue_task_inv {s s' : Sched} {task : task_ptr} {lvl : Int}
    (h : enqueue_task s task lvl = some s') :
    ∃ k : Nat, lvl = (k : Int) ∧ k < 16 ∧ k < s.queues.length ∧
      s' = ⟨store s.heap task { s.heap task with queue := (k : Int) },
        s.queues.set k (level s k ++ [task]), s.current_task⟩ := by
  unfold enqueue_task at h
  by_cases hbad : lvl < 0 ∨ lvl ≥ MLFQ_QUEUES
  · rw [if_pos hbad] at h; cases h
  rw [if_neg hbad] at h
  simp only [MLFQ_QUEUES] at hbad
  obtain ⟨k, rfl⟩ := Int.eq_ofNat_of_zero_le (by omega : 0 ≤ lvl)
  cases hlook : array_m_lookup s.queues (k : Int) with
  | none => rw [hlook] at h; cases h
  | some raw =>
    rw [array_m_lookup_natCast] at hlook
    have hlen : k < s.queues.length := (List.getElem?_eq_some.1 hlook).1
    have hval := enqueue_task_valid s task k hlen (by omega)
    unfold enqueue_task at hval
    rw [if_neg (by simp only [MLFQ_QUEUES]; omega)] at hval
    rw [hval] at h
    exact ⟨k, rfl, by omega, hlen, (Option.some.inj h).symm⟩

theorem dequeue_task_inv {s s' : Sched} {task : task_ptr} (h : dequeue_task s task = some s') :
    ∃ k : Nat, (s.heap task).queue = (k : Int) ∧ k < 16 ∧ k < s.queues.length ∧
      task ∈ level s k ∧
      s' = ⟨s.heap, s.queues.set k ((level s k).erase task), s.current_task⟩ := by
  by_cases hbad : (s.heap task).queue < 0 ∨ (s.heap task).queue ≥ MLFQ_QUEUES
  · unfold dequeue_task at h
    rw [if_pos hbad] at h; cases h
  have hbad' := hbad
  simp only [MLFQ_QUEUES] at hbad'
  obtain ⟨k, hk⟩ := Int.eq_ofNat_of_zero_le (by omega : 0 ≤ (s.heap task).queue)
  have hk16 : k < 16 := by omega
  by_cases hlen : k < s.queues.length
  · by_cases hmem : task ∈ level s k
    · rw [dequeue_task_valid s task k hlen hk16 hk hmem] at h
      exact ⟨k, hk, hk16, hlen, hmem, (Option.some.inj h).symm⟩
    · have h2 : array_m_index (level s k) task < 0 := by
        rw [array_m_index_neg]; exact hmem
      unfold dequeue_task at h
      rw [if_neg hbad, hk, array_m_lookup_natCast, getElem?_eq_level hlen] at h
      simp only at h
      rw [if_pos h2] at h
      cases h
  · unfold dequeue_task at h
    rw [if_neg hbad, hk, array_m_lookup_natCast, List.getElem?_eq_none (by omega)] at h
    cases h

theorem enqueue_task_preserves {s s' : Sched} {task : task_ptr} {lvl : Int}
    (hinv : QueueInv s) (hnew : task ∉ s.queues.flatten)
    (h : enqueue_task s task lvl = some s') :
    QueueInv s' ∧ ∀ p, p ∈ s'.queues.flatten ↔ (p ∈ s.queues.flatten ∨ p = task) := by
  obtain ⟨k, _, _, hlen, rfl⟩ := enqueue_task_inv h
  have hnotin : ∀ j, task ∉ level s j := fun j hj =>
    hnew ((mem_flatten_iff_level s task).2 ⟨j, hj⟩)
  have hlev := fun j => level_set s k j (level s k ++ [task]) hlen
    (store s.heap task { s.heap task with queue := (k : Int) }) s.current_task
  refine ⟨⟨by simpa using hinv.1, ?_⟩, ?_⟩
  · intro j _
    rw [hlev]
    by_cases hjk : j = k
    · subst hjk
      rw [if_pos rfl]
      constructor
      · rw [List.nodup_append]
        refine ⟨hinv.nodup j, List.nodup_singleton _, ?_⟩
        intro x hx hx'
        rw [List.mem_singleton] at hx'
        subst hx'
        exact hnotin j hx
      · intro p hp
        rw [List.mem_append, List.mem_singleton] at hp
        rcases hp with hp | hp
        · have hne : p ≠ task := fun e => hnotin j (e ▸ hp)
          simp only [store_other _ _ _ _ hne]
          exact hinv.queue_eq hp
        · subst hp
          simp [store_same]
    · rw [if_neg hjk]
      refine ⟨hinv.nodup j, ?_⟩
      intro p hp
      have hne : p ≠ task := fun e => hnotin j (e ▸ hp)
      simp only [store_other _ _ _ _ hne]
      exact hinv.queue_eq hp
  · intro p
    rw [mem_flatten_iff_level, mem_flatten_iff_level]
    constructor
    · rintro ⟨j, hj⟩
      rw [hlev] at hj
      by_cases hjk : j = k
      · rw [if_pos hjk, List.mem_append, List.mem_singleton] at hj
        rcases hj with hj | hj
        · exact Or.inl ⟨k, hj⟩
        · exact Or.inr hj
      · rw [if_neg hjk] at hj
        exact Or.inl ⟨j, hj⟩
    · rintro (⟨j, hj⟩ | rfl)
      · refine ⟨j, ?_⟩
        rw [hlev]
        by_cases hjk : j = k
        · subst hjk
          rw [if_pos rfl]
          exact List.mem_append_left _ hj
        · rw [if_neg hjk]; exact hj
      · refine ⟨k, ?_⟩
        rw [hlev, if_pos rfl]
        simp

theorem dequeue_task_preserves {s s' : Sched} {task : task_ptr}
    (hinv : QueueInv s) (h : dequeue_task s task = some s') :
    QueueInv s' ∧ task ∈ s.queues.flatten ∧ task ∉ s'.queues.flatten ∧
      s'.heap = s.heap ∧
      ∀ p, p ∈ s'.queues.flatten ↔ (p ∈ s.queues.flatten ∧ p ≠ task) := by
  obtain ⟨k, hk, _, hlen, hmem, rfl⟩ := dequeue_task_inv h
  have hlev := fun j => level_set s k j ((level s k).erase task) hlen s.heap s.current_task
  have hmemiff : ∀ p, p ∈ (⟨s.heap, s.queues.set k ((level s k).erase task),
      s.current_task⟩ : Sched).queues.flatten ↔ (p ∈ s.queues.flatten ∧ p ≠ task) := by
    intro p
    rw [mem_flatten_iff_level, mem_flatten_iff_level]
    constructor
    · rintro ⟨j, hj⟩
      rw [hlev] at hj
      by_cases hjk : j = k
      · rw [if_pos hjk, (hinv.nodup k).mem_erase_iff] at hj
        exact ⟨⟨k, hj.2⟩, hj.1⟩
      · rw [if_neg hjk] at hj
        refine ⟨⟨j, hj⟩, ?_⟩
        rintro rfl
        exact hjk (hinv.level_unique hj hmem)
    · rintro ⟨⟨j, hj⟩, hne⟩
      refine ⟨j, ?_⟩
      rw [hlev]
      by_cases hjk : j = k
      · subst hjk
        rw [if_pos rfl, (hinv.nodup j).mem_erase_iff]
        exact ⟨hne, hj⟩
      · rw [if_neg hjk]; exact hj
  refine ⟨⟨by simpa using hinv.1, ?_⟩, (mem_flatten_iff_level s task).2 ⟨k, hmem⟩, ?_, rfl,
    hmemiff⟩
  · intro j _
    rw [hlev]
    by_cases hjk : j = k
    · subst hjk
      rw [if_pos rfl]
      exact ⟨(hinv.nodup j).erase task, fun p hp => hinv.queue_eq (List.mem_of_mem_erase hp)⟩
    · rw [if_neg hjk]
      exact ⟨hinv.nodup j, fun p hp => hinv.queue_eq hp⟩
  · intro hcon
    exact ((hmemiff task).1 hcon).2 rfl

theorem switch_queue_preserves {s s' : Sched} {task : task_ptr} {new : Int}
    (hinv : QueueInv s) (h : switch_queue s task new = some s') :
    QueueInv s' ∧ ∀ p, p ∈ s'.queues.flatten ↔ p ∈ s.queues.flatten := by
  unfold switch_queue at h
  cases hd : dequeue_task s task with
  | none => rw [hd] at h; cases h
  | some s1 =>
    rw [hd] at h
    obtain ⟨hinv1, hin, hout, _, hiff1⟩ := dequeue_task_preserves hinv hd
    obtain ⟨hinv2, hiff2⟩ := enqueue_task_preserves hinv1 hout h
    refine ⟨hinv2, fun p => ?_⟩
    rw [hiff2, hiff1]
    constructor
    · rintro (⟨hp, _⟩ | rfl)
      · exact hp
      · exact hin
    · intro hp
      by_cases hpt : p = task
      · exact Or.inr hpt
      · exact Or.inl ⟨hp, hpt⟩

theorem demote_task_preserves {s s' : Sched} {task : task_ptr}
    (hinv : QueueInv s) (h : demote_task s task = some s') :
    QueueInv s' ∧ ∀ p, p ∈ s'.queues.flatten ↔ p ∈ s.queues.flatten := by
  unfold demote_task at h
  split_ifs at h
  · cases h
    exact ⟨hinv, fun _ => Iff.rfl⟩
  · exact switch_queue_preserves hinv h

theorem wake_idem (now : Nat) (haskey : Bool) (t : task_t) :
    wake now haskey (wake now haskey t) = wake now haskey t := by
  unfold wake
  split_ifs <;> simp_all

theorem wake_fields (now : Nat) (haskey : Bool) (t : task_t) :
    (wake now haskey t).queue = t.queue ∧ (wake now haskey t).id = t.id ∧
      (wake now haskey t).wake_timestamp = t.wake_timestamp := by
  unfold wake
  split_ifs <;> simp

theorem update_blocked_task_eq (now : Nat) (haskey : Bool) (s : Sched) (task : task_ptr)
    (hinst : s.queues ≠ []) :
    update_blocked_task now haskey s task =
      ⟨store s.heap task (wake now haskey (s.heap task)), s.queues, s.current_task⟩ := by
  have hi : ¬ (!tasking_installed s) = true := by
    simpa [tasking_installed] using hinst
  have hself : (⟨store s.heap task (s.heap task), s.queues, s.current_task⟩ : Sched) = s := by
    cases s with
    | mk heap queues cur =>
      simp only [Sched.mk.injEq, and_true]
      funext q
      by_cases hq : q = task
      · subst hq; simp [store]
      · simp [store, hq]
  unfold update_blocked_task unblock_task wake
  rw [if_neg hi]
  split_ifs <;> simp_all

theorem foldl_update_blocked_task (now : Nat) (haskey : Bool) (l : List task_ptr) :
    ∀ s : Sched, s.queues ≠ [] →
      (l.foldl (update_blocked_task now haskey) s).queues = s.queues ∧
      (l.foldl (update_blocked_task now haskey) s).current_task = s.current_task ∧
      ∀ p, (l.foldl (update_blocked_task now haskey) s).heap p =
        if p ∈ l then wake now haskey (s.heap p) else s.heap p := by
  induction l with
  | nil => intro s _; simp
  | cons x xs ih =>
    intro s hinst
    rw [List.foldl_cons, update_blocked_task_eq now haskey s x hinst]
    obtain ⟨hq, hc, hh⟩ := ih ⟨store s.heap x (wake now haskey (s.heap x)), s.queues,
      s.current_task⟩ hinst
    refine ⟨hq, hc, fun p => ?_⟩
    rw [hh p]
    by_cases hpx : p = x
    · subst hpx
      simp only [store_same, List.mem_cons, true_or, if_true]
      split_ifs
      · exact wake_idem _ _ _
      · rfl
    · simp only [store_other _ _ _ _ hpx, List.mem_cons, hpx, false_or]

theorem foldl_foldl_flatten {α β : Type} (f : β → α → β) (qs : List (List α)) :
    ∀ b : β, qs.foldl (fun acc q => q.foldl f acc) b = qs.flatten.foldl f b := by
  induction qs with
  | nil => intro b; rfl
  | cons q qs ih =>
    intro b
    rw [List.foldl_cons, List.flatten_cons, List.foldl_append, ih]

/-- One sentinel scan keeps the queues and the current task, and maps the record of every
queued task through `wake`. -/
theorem update_blocked_tasks_eq (now : Nat) (haskey : Bool) (s : Sched) :
    (update_blocked_tasks now haskey s).queues = s.queues ∧
    (update_blocked_tasks now haskey s).current_task = s.current_task ∧
    ∀ p, (update_blocked_tasks now haskey s).heap p =
      if p ∈ s.queues.flatten then wake now haskey (s.heap p) else s.heap p := by
  unfold update_blocked_tasks
  by_cases hinst : s.queues = []
  · have hi : (!tasking_installed s) = true := by simp [tasking_installed, hinst]
    rw [if_pos hi]
    simp [hinst]
  · have hi : ¬ (!tasking_installed s) = true := by
      simpa [tasking_installed] using hinst
    rw [if_neg hi, foldl_foldl_flatten]
    exact foldl_update_blocked_task now haskey s.queues.flatten s hinst

theorem level_congr {s s' : Sched} (h : s'.queues = s.queues) (k : Nat) :
    level s' k = level s k := by
  unfold level; rw [h]

theorem update_blocked_tasks_preserves (now : Nat) (haskey : Bool) {s : Sched}
    (hinv : QueueInv s) :
    QueueInv (update_blocked_tasks now haskey s) ∧
      ∀ p, p ∈ (update_blocked_tasks now haskey s).queues.flatten ↔ p ∈ s.queues.flatten := by
  obtain ⟨hq, _, hh⟩ := update_blocked_tasks_eq now haskey s
  refine ⟨⟨by rw [hq]; exact hinv.1, ?_⟩, fun p => by rw [hq]⟩
  intro k _
  rw [level_congr hq]
  refine ⟨hinv.nodup k, fun p hp => ?_⟩
  rw [hh p]
  split_ifs
  · rw [(wake_fields now haskey _).1]; exact hinv.queue_eq hp
  · exact hinv.queue_eq hp

theorem next_runnable_task_no_value {s s' : Sched}
    (h : next_runnable_task s = some (none, s')) : s' = s := by
  unfold next_runnable_task at h
  by_cases hinst : (!tasking_installed s) = true
  · rw [if_pos hinst] at h
    simp only [Option.some.injEq, Prod.mk.injEq, true_and] at h
    exact h.symm
  · exfalso
    rw [if_neg hinst] at h
    revert h
    split
    · intro h; cases h
    · simp only
      split_ifs
      · intro h; cases h
      all_goals
        split
        · intro h; cases h
        · split
          · intro h; cases h
          · split
            · intro h; cases h
            · split_ifs
              · intro h; cases h
              · split
                · intro h; cases h
                · intro h; cases h
              · intro h; cases h

theorem next_runnable_task_state {s s' : Sched} {r : Option task_ptr}
    (h : next_runnable_task s = some (r, s')) :
    s' = s ∨ demote_task s s.current_task = some s' := by
  cases r with
  | some t =>
    obtain ⟨_, _, _, hdem, _⟩ := next_runnable_task_inv h
    split_ifs at hdem
    · exact Or.inr hdem
    · exact Or.inl (Option.some.inj hdem).symm
  | none => exact Or.inl (next_runnable_task_no_value h)

theorem next_runnable_task_preserves {s s' : Sched} {r : Option task_ptr}
    (hinv : QueueInv s) (h : next_runnable_task s = some (r, s')) :
    QueueInv s' ∧ ∀ p, p ∈ s'.queues.flatten ↔ p ∈ s.queues.flatten := by
  rcases next_runnable_task_state h with rfl | hdem
  · exact ⟨hinv, fun _ => Iff.rfl⟩
  · exact demote_task_preserves hinv hdem

theorem QueueInv.level_of_mem {s : Sched} (hinv : QueueInv s) {task : task_ptr}
    (h : task ∈ s.queues.flatten) :
    ∃ k : Nat, k < 16 ∧ (s.heap task).queue = (k : Int) ∧ task ∈ level s k := by
  obtain ⟨k, hk⟩ := (mem_flatten_iff_level s task).1 h
  refine ⟨k, ?_, hinv.queue_eq hk, hk⟩
  by_contra hcon
  rw [level_of_le (by rw [hinv.1]; omega)] at hk
  cases hk

theorem switch_queue_succeeds {s : Sched} (hinv : QueueInv s) {task : task_ptr} {new : Int}
    (h : task ∈ s.queues.flatten) (h0 : 0 ≤ new) (h15 : new ≤ 15) :
    ∃ s', switch_queue s task new = some s' := by
  obtain ⟨k, hk16, hq, hmem⟩ := hinv.level_of_mem h
  obtain ⟨n, rfl⟩ := Int.eq_ofNat_of_zero_le h0
  have hlen : k < s.queues.length := by rw [hinv.1]; exact hk16
  unfold switch_queue
  rw [dequeue_task_valid s task k hlen hk16 hq hmem]
  simp only
  rw [enqueue_task_valid _ task n (by simp only [List.length_set]; rw [hinv.1]; omega)
    (by omega)]
  exact ⟨_, rfl⟩

theorem demote_task_succeeds {s : Sched} (hinv : QueueInv s) {task : task_ptr}
    (h : task ∈ s.queues.flatten) : ∃ s', demote_task s task = some s' := by
  obtain ⟨k, hk16, hq, _⟩ := hinv.level_of_mem h
  unfold demote_task
  by_cases hb : (s.heap task).queue ≥ MLFQ_QUEUES - 1
  · rw [if_pos hb]; exact ⟨s, rfl⟩
  · rw [if_neg hb]
    simp only [MLFQ_QUEUES] at hb
    exact switch_queue_succeeds hinv h (by omega) (by omega)

/-- C5: the queue-membership invariant (sixteen levels, no task twice in a level, every
queued task in the level it records) is preserved by `enqueue_task` of an unqueued task,
by `switch_queue`, by `demote_task`, by a non-failing `next_runnable_task` and by
`update_blocked_tasks`; the set of queued tasks stays the same (`enqueue_task` adds the new
task), so no task ends up in two queues and none drops out of the queues. The first three
operations do return a state when the level is valid and, for the last two of them, the
task is queued. -/
theorem C5_queue_membership_invariant (s : Sched) (hinv : QueueInv s) :
    (∀ task lvl, task ∉ s.queues.flatten →
      (∀ s', enqueue_task s task lvl = some s' →
        QueueInv s' ∧ ∀ p, p ∈ s'.queues.flatten ↔ (p ∈ s.queues.flatten ∨ p = task)) ∧
      (0 ≤ lvl → lvl ≤ 15 → ∃ s', enqueue_task s task lvl = some s')) ∧
    (∀ task new,
      (∀ s', switch_queue s task new = some s' →
        QueueInv s' ∧ ∀ p, p ∈ s'.queues.flatten ↔ p ∈ s.queues.flatten) ∧
      (task ∈ s.queues.flatten → 0 ≤ new → new ≤ 15 →
        ∃ s', switch_queue s task new = some s')) ∧
    (∀ task,
      (∀ s', demote_task s task = some s' →
        QueueInv s' ∧ ∀ p, p ∈ s'.queues.flatten ↔ p ∈ s.queues.flatten) ∧
      (task ∈ s.queues.flatten → ∃ s', demote_task s task = some s')) ∧
    (∀ r s', next_runnable_task s = some (r, s') →
      QueueInv s' ∧ ∀ p, p ∈ s'.queues.flatten ↔ p ∈ s.queues.flatten) ∧
    (∀ now haskey,
      QueueInv (update_blocked_tasks now haskey s) ∧
        ∀ p, p ∈ (update_blocked_tasks now haskey s).queues.flatten ↔
          p ∈ s.queues.flatten) := by
  refine ⟨?_, ?_, ?_, ?_, ?_⟩
  · intro task lvl hnew
    refine ⟨fun s' h => enqueue_task_preserves hinv hnew h, fun h0 h15 => ?_⟩
    obtain ⟨n, rfl⟩ := Int.eq_ofNat_of_zero_le h0
    exact ⟨_, enqueue_task_valid s task n (by rw [hinv.1]; omega) (by omega)⟩
  · intro task new
    exact ⟨fun s' h => switch_queue_preserves hinv h,
      fun h h0 h15 => switch_queue_succeeds hinv h h0 h15⟩
  · intro task
    exact ⟨fun s' h => demote_task_preserves hinv h, fun h => demote_task_succeeds hinv h⟩
  · intro r s' h
    exact next_runnable_task_preserves hinv h
  · intro now haskey
    exact update_blocked_tasks_preserves now haskey hinv

/-- C8: one `update_blocked_tasks` scan at time `now` with input-ready flag `haskey` keeps
every queue and the current task; it changes no record of an unqueued task and no level,
id or deadline; for a queued task, PIT_WAIT becomes RUNNABLE exactly when
`now ≥ wake_timestamp` and otherwise stays PIT_WAIT, KB_WAIT becomes RUNNABLE exactly when
`haskey` holds and otherwise stays KB_WAIT, and RUNNABLE and ZOMBIE are kept. A queued task
waiting for deadline `t + 50` is still PIT_WAIT after a scan at `t + 49` and RUNNABLE after
a scan at `t + 51`. -/
theorem C8_update_blocked_tasks_scan (s : Sched) (haskey : Bool) (p : task_ptr) :
    (∀ now,
      (update_blocked_tasks now haskey s).queues = s.queues ∧
      (update_blocked_tasks now haskey s).current_task = s.current_task ∧
      ((update_blocked_tasks now haskey s).heap p).queue = (s.heap p).queue ∧
      ((update_blocked_tasks now haskey s).heap p).id = (s.heap p).id ∧
      ((update_blocked_tasks now haskey s).heap p).wake_timestamp =
        (s.heap p).wake_timestamp ∧
      (p ∉ s.queues.flatten → (update_blocked_tasks now haskey s).heap p = s.heap p) ∧
      (p ∈ s.queues.flatten →
        ((s.heap p).state = task_state.PIT_WAIT →
          (((update_blocked_tasks now haskey s).heap p).state = task_state.RUNNABLE ↔
            now ≥ (s.heap p).wake_timestamp) ∧
          (now < (s.heap p).wake_timestamp →
            ((update_blocked_tasks now haskey s).heap p).state = task_state.PIT_WAIT)) ∧
        ((s.heap p).state = task_state.KB_WAIT →
          (((update_blocked_tasks now haskey s).heap p).state = task_state.RUNNABLE ↔
            haskey = true) ∧
          (haskey = false →
            ((update_blocked_tasks now haskey s).heap p).state = task_state.KB_WAIT)) ∧
        ((s.heap p).state = task_state.RUNNABLE →
          ((update_blocked_tasks now haskey s).heap p).state = task_state.RUNNABLE) ∧
        ((s.heap p).state = task_state.ZOMBIE →
          ((update_blocked_tasks now haskey s).heap p).state = task_state.ZOMBIE))) ∧
    (∀ t, p ∈ s.queues.flatten → (s.heap p).state = task_state.PIT_WAIT →
      (s.heap p).wake_timestamp = t + 50 →
      ((update_blocked_tasks (t + 49) haskey s).heap p).state = task_state.PIT_WAIT ∧
      ((update_blocked_tasks (t + 51) haskey s).heap p).state = task_state.RUNNABLE) := by
  have hstate : ∀ now, p ∈ s.queues.flatten →
      (update_blocked_tasks now haskey s).heap p = wake now haskey (s.heap p) := by
    intro now hp
    rw [(update_blocked_tasks_eq now haskey s).2.2 p, if_pos hp]
  constructor
  · intro now
    obtain ⟨hq, hc, hh⟩ := update_blocked_tasks_eq now haskey s
    have hf := wake_fields now haskey (s.heap p)
    refine ⟨hq, hc, ?_, ?_, ?_, ?_, ?_⟩
    · rw [hh p]; split_ifs
      · exact hf.1
      · rfl
    · rw [hh p]; split_ifs
      · exact hf.2.1
      · rfl
    · rw [hh p]; split_ifs
      · exact hf.2.2
      · rfl
    · intro hp
      rw [hh p, if_neg hp]
    · intro hp
      rw [hstate now hp]
      refine ⟨fun hs => ?_, fun hs => ?_, fun hs => ?_, fun hs => ?_⟩
      · unfold wake
        rw [if_pos hs]
        by_cases hnow : now ≥ (s.heap p).wake_timestamp
        · rw [if_pos hnow]
          exact ⟨⟨fun _ => hnow, fun _ => rfl⟩, fun hlt => absurd hnow (by omega)⟩
        · rw [if_neg hnow]
          refine ⟨⟨fun h => ?_, fun h => absurd h hnow⟩, fun _ => hs⟩
          rw [hs] at h
          cases h
      · unfold wake
        rw [if_neg (by rw [hs]; decide), if_pos hs]
        cases haskey with
        | true => simp
        | false => simp [hs]
      · unfold wake
        rw [if_neg (by rw [hs]; decide), if_neg (by rw [hs]; decide)]
        exact hs
      · unfold wake
        rw [if_neg (by rw [hs]; decide), if_neg (by rw [hs]; decide)]
        exact hs
  · intro t hp hs hw
    rw [hstate _ hp, hstate _ hp]
    unfold wake
    rw [if_pos hs, if_pos hs, hw, if_neg (by omega), if_pos (by omega)]
    exact ⟨hs, rfl⟩

theorem goto_pid_frame {s s' : Sched} {id : Int} (h : goto_pid s id = some s') :
    s'.heap = s.heap ∧ s'.queues = s.queues := by
  unfold goto_pid at h
  split_ifs at h
  · cases h; exact ⟨rfl, rfl⟩
  · split at h
    · cases h
    · cases h; exact ⟨rfl, rfl⟩

theorem task_switch_inv {s s' : Sched} (h : task_switch s = some s') :
    ∃ next s1, next_runnable_task s = some (some next, s1) ∧
      s'.heap = s1.heap ∧ s'.queues = s1.queues := by
  unfold task_switch at h
  split at h
  · cases h
  · cases h
  · rename_i next s1 hn
    split_ifs at h
    exact ⟨next, s1, hn, goto_pid_frame h⟩

theorem demote_task_frame {s s' : Sched} {task p : task_ptr}
    (h : demote_task s task = some s') (hp : p ≠ task) :
    s'.heap p = s.heap p ∧ ∀ j, (p ∈ level s' j ↔ p ∈ level s j) := by
  unfold demote_task at h
  split_ifs at h
  · cases h; exact ⟨rfl, fun _ => Iff.rfl⟩
  · unfold switch_queue at h
    cases hd : dequeue_task s task with
    | none => rw [hd] at h; cases h
    | some s1 =>
      rw [hd] at h
      obtain ⟨k, _, _, hlen, _, rfl⟩ := dequeue_task_inv hd
      obtain ⟨m, _, _, hmlen, rfl⟩ := enqueue_task_inv h
      refine ⟨store_other _ _ _ _ hp, fun j => ?_⟩
      rw [level_set _ m j _ hmlen, level_set s k m _ hlen, level_set s k j _ hlen]
      by_cases hjm : j = m
      · subst hjm
        rw [if_pos rfl]
        by_cases hjk : j = k
        · rw [if_pos hjk, List.mem_append, List.mem_singleton, List.mem_erase_of_ne hp, hjk]
          exact ⟨fun h => h.resolve_right hp, Or.inl⟩
        · rw [if_neg hjk, List.mem_append, List.mem_singleton]
          exact ⟨fun h => h.resolve_right hp, Or.inl⟩
      · rw [if_neg hjm]
        by_cases hjk : j = k
        · rw [if_pos hjk, List.mem_erase_of_ne hp, hjk]
        · rw [if_neg hjk]

/-- A dispatch leaves a task that is not RUNNABLE where it is. -/
theorem task_switch_frame {s s' : Sched} {p : task_ptr} (h : task_switch s = some s')
    (hp : (s.heap p).state ≠ task_state.RUNNABLE) :
    s'.heap p = s.heap p ∧ ∀ j, (p ∈ level s' j ↔ p ∈ level s j) := by
  obtain ⟨next, s1, hn, hheap, hqueues⟩ := task_switch_inv h
  obtain ⟨_, _, _, hdem, _⟩ := next_runnable_task_inv hn
  rw [hheap]
  simp only [level_congr hqueues]
  split_ifs at hdem with hrun
  · have hne : p ≠ s.current_task := by
      rintro rfl
      exact hp hrun
    exact demote_task_frame hdem hne
  · cases hdem
    exact ⟨rfl, fun _ => Iff.rfl⟩

theorem dispatches_frame (n : Nat) :
    ∀ {s s' : Sched} {p : task_ptr}, dispatches n s = some s' →
      (s.heap p).state ≠ task_state.RUNNABLE →
      s'.heap p = s.heap p ∧ ∀ j, (p ∈ level s' j ↔ p ∈ level s j) := by
  induction n with
  | zero =>
    intro s s' p h _
    cases h
    exact ⟨rfl, fun _ => Iff.rfl⟩
  | succ n ih =>
    intro s s' p h hp
    unfold dispatches at h
    cases hs : task_switch s with
    | none => rw [hs] at h; cases h
    | some s1 =>
      rw [hs] at h
      obtain ⟨h1, h2⟩ := task_switch_frame hs hp
      obtain ⟨h3, h4⟩ := ih h (by rw [h1]; exact hp)
      exact ⟨h3.trans h1, fun j => (h4 j).trans (h2 j)⟩

theorem next_runnable_task_not_runnable {s s' : Sched} {r : Option task_ptr}
    (hnr : (s.heap s.current_task).state ≠ task_state.RUNNABLE)
    (h : next_runnable_task s = some (r, s')) : s' = s := by
  cases r with
  | some t =>
    obtain ⟨_, _, _, hdem, _⟩ := next_runnable_task_inv h
    rw [if_neg hnr] at hdem
    exact (Option.some.inj hdem).symm
  | none => exact next_runnable_task_no_value h

theorem block_task_inv {s s' : Sched} {task : task_ptr} {reason : task_state}
    (hinst : s.queues ≠ []) (h : block_task s task reason = some s') :
    task_switch ⟨store s.heap task { s.heap task with state := reason }, s.queues,
      s.current_task⟩ = some s' := by
  have hi : ¬ (!tasking_installed s) = true := by
    simpa [tasking_installed] using hinst
  unfold block_task at h
  rw [if_neg hi] at h
  exact h

/-- C9: block the current task of a well-formed state, at level `L`, on the timer or on
input; let the dispatch of `block_task` run, then any number `n` of further dispatches, then
an `update_blocked_tasks` scan whose wake condition holds for the task. The dispatch of
`block_task` moves no queue entry; before the scan the task is still waiting at level `L`
in queue `L`; after the scan it is RUNNABLE, its level is still `L` and it is still an entry
of queue `L`. In general `next_runnable_task` changes nothing when the current task is not
RUNNABLE. -/
theorem C9_blocked_task_keeps_priority (s s1 s2 : Sched) (L n : Nat) (reason : task_state)
    (now : Nat) (haskey : Bool) (hwf : WellFormed s)
    (hL : (s.heap s.current_task).queue = (L : Int))
    (hreason : reason = task_state.PIT_WAIT ∨ reason = task_state.KB_WAIT)
    (hblock : block_task s s.current_task reason = some s1)
    (hlater : dispatches n s1 = some s2)
    (hwake : (reason = task_state.PIT_WAIT → now ≥ (s.heap s.current_task).wake_timestamp) ∧
      (reason = task_state.KB_WAIT → haskey = true)) :
    (s1.queues = s.queues ∧ (s1.heap s.current_task).state = reason ∧
      (s1.heap s.current_task).queue = (L : Int)) ∧
    ((s2.heap s.current_task).state = reason ∧ (s2.heap s.current_task).queue = (L : Int) ∧
      s.current_task ∈ level s2 L) ∧
    (((update_blocked_tasks now haskey s2).heap s.current_task).state = task_state.RUNNABLE ∧
      ((update_blocked_tasks now haskey s2).heap s.current_task).queue = (L : Int) ∧
      s.current_task ∈ level (update_blocked_tasks now haskey s2) L) ∧
    (∀ (u u' : Sched) (r : Option task_ptr),
      (u.heap u.current_task).state ≠ task_state.RUNNABLE →
      next_runnable_task u = some (r, u') → u' = u) := by
  obtain ⟨hmem, _⟩ := hwf.level_lt hL
  have hinst : s.queues ≠ [] := by
    intro h0
    have := hwf.1.1
    rw [h0] at this
    cases this
  have hnr : reason ≠ task_state.RUNNABLE := by
    rcases hreason with rfl | rfl <;> decide
  have hsw := block_task_inv hinst hblock
  obtain ⟨next, s0, hn, hheap, hqueues⟩ := task_switch_inv hsw
  have hs0 := next_runnable_task_not_runnable
    (s := ⟨store s.heap s.current_task { s.heap s.current_task with state := reason },
      s.queues, s.current_task⟩) (by simpa [store_same] using hnr) hn
  subst hs0
  have h1state : (s1.heap s.current_task).state = reason := by
    rw [hheap]; simp [store_same]
  have h1queue : (s1.heap s.current_task).queue = (L : Int) := by
    rw [hheap]; simpa [store_same] using hL
  have h1mem : s.current_task ∈ level s1 L := by
    rw [level_congr hqueues]; exact hmem
  obtain ⟨h2heap, h2lev⟩ := dispatches_frame n (p := s.current_task) hlater
    (by rw [h1state]; exact hnr)
  have h2state : (s2.heap s.current_task).state = reason := by rw [h2heap]; exact h1state
  have h2queue : (s2.heap s.current_task).queue = (L : Int) := by rw [h2heap]; exact h1queue
  have h2mem : s.current_task ∈ level s2 L := (h2lev L).2 h1mem
  have h2wake : (s2.heap s.current_task).wake_timestamp =
      (s.heap s.current_task).wake_timestamp := by
    rw [h2heap, hheap]; simp [store_same]
  obtain ⟨h3q, _, h3h⟩ := update_blocked_tasks_eq now haskey s2
  have h2flat : s.current_task ∈ s2.queues.flatten :=
    (mem_flatten_iff_level s2 _).2 ⟨L, h2mem⟩
  refine ⟨⟨hqueues, h1state, h1queue⟩, ⟨h2state, h2queue, h2mem⟩, ⟨?_, ?_, ?_⟩,
    fun u u' r hu h => next_runnable_task_not_runnable hu h⟩
  · rw [h3h, if_pos h2flat]
    unfold wake
    rcases hreason with rfl | rfl
    · rw [if_pos h2state, h2wake, if_pos (hwake.1 rfl)]
    · rw [if_neg (by rw [h2state]; decide), if_pos h2state, if_pos (hwake.2 rfl)]
  · rw [h3h, if_pos h2flat, (wake_fields now haskey _).1]
    exact h2queue
  · rw [level_congr h3q]; exact h2mem

/-- The fuel of `reap_queue` is immaterial once it covers the entries still to be visited:
the loop then ends by its own test `j < queue->size`. -/
theorem reap_queue_fuel (heap : task_ptr → task_t) (fuel1 : Nat) :
    ∀ (fuel2 j : Nat) (queue : List task_ptr), queue.length - j ≤ fuel1 →
      queue.length - j ≤ fuel2 →
      reap_queue heap fuel1 j queue = reap_queue heap fuel2 j queue := by
  induction fuel1 with
  | zero =>
    intro fuel2 j queue h1 _
    have hnone : queue[j]? = none := List.getElem?_eq_none (by omega)
    cases fuel2 with
    | zero => rfl
    | succ m => simp [reap_queue, hnone]
  | succ n ih =>
    intro fuel2 j queue h1 h2
    cases hq : queue[j]? with
    | none =>
      cases fuel2 with
      | zero => simp [reap_queue, hq]
      | succ m => simp [reap_queue, hq]
    | some task =>
      have hj : j < queue.length := (List.getElem?_eq_some.1 hq).1
      cases fuel2 with
      | zero => omega
      | succ m =>
        have hrem : array_m_remove queue (j : Int) = queue.eraseIdx j := by
          simp [array_m_remove]
        have hlen : (queue.eraseIdx j).length = queue.length - 1 := by
          rw [List.length_eraseIdx, if_pos hj]
        simp only [reap_queue, hq, hrem]
        split_ifs
        · exact ih m (j + 1) _ (by rw [hlen]; omega) (by rw [hlen]; omega)
        · exact ih m (j + 1) _ (by omega) (by omega)

theorem take_eraseIdx_self (q : List task_ptr) (j : Nat) :
    (q.eraseIdx j).take j = q.take j := by
  apply List.ext_getElem?
  intro i
  rw [List.getElem?_take, List.getElem?_take, List.getElem?_eraseIdx]
  by_cases hi : i < j
  · simp [hi]
  · simp [hi]

/-- The scan of `reap` never touches the entries in front of its index. -/
theorem reap_queue_take (heap : task_ptr → task_t) (fuel : Nat) :
    ∀ (j : Nat) (queue : List task_ptr),
      (reap_queue heap fuel j queue).take j = queue.take j := by
  induction fuel with
  | zero => intro j queue; rfl
  | succ n ih =>
    intro j queue
    cases hq : queue[j]? with
    | none => simp [reap_queue, hq]
    | some task =>
      have hrem : array_m_remove queue (j : Int) = queue.eraseIdx j := by
        simp [array_m_remove]
      have hmin : ∀ l : List task_ptr, l.take j = (l.take (j + 1)).take j := by
        intro l
        rw [List.take_take, Nat.min_eq_left (Nat.le_succ j)]
      simp only [reap_queue, hq, hrem]
      split_ifs
      · rw [hmin, ih (j + 1), ← hmin, take_eraseIdx_self]
      · rw [hmin, ih (j + 1), ← hmin]

/-- The entry that follows a ZOMBIE at the head of a queue is moved to the front by the
removal and is then skipped by the scan, whatever its state. -/
theorem reap_queue_skips_after_zombie (heap : task_ptr → task_t) (a b : task_ptr)
    (rest : List task_ptr) (ha : (heap a).state = task_state.ZOMBIE) :
    (reap_queue heap (a :: b :: rest).length 0 (a :: b :: rest)).head? = some b := by
  have hstep : reap_queue heap (a :: b :: rest).length 0 (a :: b :: rest) =
      reap_queue heap (rest.length + 1) 1 (b :: rest) := by
    simp [reap_queue, ha, array_m_remove]
  have htake := reap_queue_take heap (rest.length + 1) 1 (b :: rest)
  rw [hstep]
  cases hres : reap_queue heap (rest.length + 1) 1 (b :: rest) with
  | nil => rw [hres] at htake; simp at htake
  | cons x xs =>
    rw [hres] at htake
    simp only [List.take_succ_cons, List.take_zero, List.cons.injEq, and_true] at htake
    rw [htake]
    rfl

theorem first_queue_runnable_at {heap : task_ptr → task_t} {q : List task_ptr} {off : Nat}
    {t : task_ptr} (ht : q[off]? = some t) (hrun : (heap t).state = task_state.RUNNABLE) :
    first_queue_runnable heap q off = some t := by
  obtain ⟨hlt, hget⟩ := List.getElem?_eq_some.1 ht
  unfold first_queue_runnable
  rw [List.drop_eq_getElem_cons hlt, hget, List.find?_cons]
  simp [hrun]

/-- After a preemption the scan restarts one position too far: when the current task is
RUNNABLE at position `i` of level `L < 15`, no level of higher priority holds a RUNNABLE
task and the entry at position `i + 2` is RUNNABLE, `next_runnable_task` returns that entry,
whatever the entry at position `i + 1` is. -/
theorem next_runnable_task_skips_successor (s : Sched) (L i : Nat) (c : task_ptr)
    (hwf : WellFormed s)
    (hrun : (s.heap s.current_task).state = task_state.RUNNABLE)
    (hL : (s.heap s.current_task).queue = (L : Int)) (hlt : L < 15)
    (hi : (level s L)[i]? = some s.current_task)
    (hc : (level s L)[i + 2]? = some c) (hcrun : (s.heap c).state = task_state.RUNNABLE)
    (habove : ∀ k, k < L → ∀ p, p ∈ level s k → (s.heap p).state ≠ task_state.RUNNABLE) :
    ∃ s', next_runnable_task s = some (some c, s') := by
  obtain ⟨hmem, _⟩ := hwf.level_lt hL
  have h16 : s.queues.length = 16 := hwf.1.1
  have hnd : (level s L).Nodup := hwf.1.nodup L
  have hstep := demote_task_step s s.current_task L h16 hL hmem hlt
  have hdem := (if_pos hrun : (if (s.heap s.current_task).state = task_state.RUNNABLE then
        demote_task s s.current_task else some s) = _).trans hstep
  have hlev := fun j => level_after_demote s L j (by omega) ((level s L).erase s.current_task)
    (level s (L + 1) ++ [s.current_task])
    (store s.heap s.current_task
      { s.heap s.current_task with queue := ((L + 1 : Nat) : Int) }) s.current_task
  have hidx : array_m_index (level s L) s.current_task = (i : Int) :=
    array_m_index_of_getElem? hnd hi
  have hindexOf : (level s L).indexOf s.current_task = i := by
    obtain ⟨hlti, hget⟩ := List.getElem?_eq_some.1 hi
    have := List.indexOf_getElem hnd i hlti
    rw [hget] at this
    exact this
  have herase : (level s L).erase s.current_task = (level s L).eraseIdx i := by
    rw [← eraseIdx_indexOf, hindexOf]
  have hstate : ∀ p, ((store s.heap s.current_task
      { s.heap s.current_task with queue := ((L + 1 : Nat) : Int) }) p).state =
      (s.heap p).state := by
    intro p
    by_cases hp : p = s.current_task
    · subst hp; simp [store_same]
    · rw [store_other _ _ _ _ hp]
  have hLne : ¬ L = L + 1 := by omega
  have hnew : (level ⟨store s.heap s.current_task
      { s.heap s.current_task with queue := ((L + 1 : Nat) : Int) },
      (s.queues.set L ((level s L).erase s.current_task)).set (L + 1)
        (level s (L + 1) ++ [s.current_task]), s.current_task⟩ L)[i + 1]? = some c := by
    rw [hlev, if_neg hLne, if_pos rfl, herase, List.getElem?_eraseIdx,
      if_neg (by omega : ¬ i + 1 < i)]
    exact hc
  have hFl : FirstRunnableLevel ⟨store s.heap s.current_task
      { s.heap s.current_task with queue := ((L + 1 : Nat) : Int) },
      (s.queues.set L ((level s L).erase s.current_task)).set (L + 1)
        (level s (L + 1) ++ [s.current_task]), s.current_task⟩ L := by
    refine ⟨by simp only [List.length_set]; omega, ⟨c, List.getElem?_mem hnew, ?_⟩, ?_⟩
    · rw [hstate]; exact hcrun
    · intro k hk p hp
      rw [hlev, if_neg (by omega), if_neg (by omega)] at hp
      rw [hstate]
      exact habove k hk p hp
  have hF := first_queue_containing_runnable_of_level hFl
  refine ⟨_, next_runnable_task_run hL hmem hdem hF ?_⟩
  rw [hidx, decide_eq_true rfl, round_robin_same,
    first_queue_runnable_at hnew (by rw [hstate]; exact hcrun)]

/-- C3: the round-robin after a preemption skips the entry that follows the preempted
task. In `scenario_abc` (A, B, C RUNNABLE at level 0 in that order, A current, nothing at
a higher priority, B at position 1) the dispatch that preempts A demotes A and returns C,
not B; the current task becomes C, and only the following dispatch selects B. -/
theorem C3_round_robin_skips_successor :
    WellFormed scenario_abc ∧
    (scenario_abc.heap scenario_abc.current_task).state = task_state.RUNNABLE ∧
    (scenario_abc.heap scenario_abc.current_task).queue = 0 ∧
    (level scenario_abc 0)[0]? = some scenario_abc.current_task ∧
    (level scenario_abc 0)[1]? = some 2 ∧
    (scenario_abc.heap 2).state = task_state.RUNNABLE ∧
    next_runnable_task scenario_abc = some (some 3, scenario_abc_demoted) ∧
    (task_switch scenario_abc).map (fun s => s.current_task) = some 3 ∧
    ((task_switch scenario_abc).bind task_switch).map (fun s => s.current_task) = some 2 := by
  refine ⟨?_, by decide, by decide, by decide, by decide, by decide, by rfl, by decide,
    by decide⟩
  unfold WellFormed QueueInv CurrentQueued
  decide

/-- C10: one reaper scan can leave a ZOMBIE behind. In `scenario_zombies` level 0 holds the
ZOMBIE records 1 and 2 at adjacent positions followed by task 3; after one scan level 0 is
`[2, 3]`: record 2 is still queued and still ZOMBIE. -/
theorem C10_reap_scan_leaves_adjacent_zombie :
    (scenario_zombies.heap 1).state = task_state.ZOMBIE ∧
    (scenario_zombies.heap 2).state = task_state.ZOMBIE ∧
    level scenario_zombies 0 = [1, 2, 3] ∧
    level (reap_scan scenario_zombies) 0 = [2, 3] ∧
    ((reap_scan scenario_zombies).heap 2).state = task_state.ZOMBIE := by
  decide

theorem QueueInv.flatten_nodup {s : Sched} (hinv : QueueInv s) : s.queues.flatten.Nodup := by
  rw [List.nodup_flatten]
  constructor
  · intro q hq
    obtain ⟨k, hk⟩ := List.mem_iff_getElem?.1 hq
    rw [← level_eq_of_getElem? hk]
    exact hinv.nodup k
  · rw [List.pairwise_iff_getElem]
    intro i j hi hj hij p hpi hpj
    have h1 : p ∈ level s i := by
      rw [level_eq_of_getElem? (List.getElem?_eq_getElem hi)]; exact hpi
    have h2 : p ∈ level s j := by
      rw [level_eq_of_getElem? (List.getElem?_eq_getElem hj)]; exact hpj
    have := hinv.level_unique h1 h2
    omega

/-! ## Instances of the theorems on concrete states -/

theorem scenario_abc_wellFormed : WellFormed scenario_abc := by
  unfold WellFormed QueueInv CurrentQueued
  decide

theorem scenario_waiting_wellFormed : WellFormed scenario_waiting := by
  unfold WellFormed QueueInv CurrentQueued
  decide

theorem C1_witness :
    scenario_abc.queues.length = 16 ∧ CurrentQueued scenario_abc ∧
      next_runnable_task scenario_abc = some (some 3, scenario_abc_demoted) ∧
      (scenario_abc_demoted.heap 3).state = task_state.RUNNABLE ∧
      ∃ F, FirstRunnableLevel scenario_abc_demoted F ∧ 3 ∈ level scenario_abc_demoted F :=
  ⟨by decide, scenario_abc_wellFormed.2, by rfl,
    (C1_next_runnable_task_selects_first_level scenario_abc scenario_abc_demoted 3 (by decide)
      scenario_abc_wellFormed.2 (by rfl)).2⟩

theorem C2_witness :
    WellFormed scenario_abc ∧
      ∃ t s', next_runnable_task scenario_abc = some (some t, s') ∧
        (s'.heap 1).queue = 1 ∧ 1 ∉ level s' 0 ∧ level s' 1 = [1] := by
  refine ⟨scenario_abc_wellFormed, ?_⟩
  obtain ⟨t, s', h, hq, hmove, _, _⟩ :=
    C2_preempted_task_demoted_one_level scenario_abc 0 scenario_abc_wellFormed (by decide)
      (by decide)
  exact ⟨t, s', h, hq, (hmove (by decide)).1, (hmove (by decide)).2⟩

theorem C4_witness :
    WellFormed scenario_waiting ∧ FirstRunnableLevel scenario_waiting 0 ∧
      ∃ t, next_runnable_task scenario_waiting = some (some t, scenario_waiting) ∧
        (FirstRunnableFrom scenario_waiting.heap (level scenario_waiting 0) 1 t ∨
          (NoRunnableFrom scenario_waiting.heap (level scenario_waiting 0) 1 ∧
            FirstRunnableFrom scenario_waiting.heap (level scenario_waiting 0) 0 t)) := by
  have hF : FirstRunnableLevel scenario_waiting 0 :=
    ⟨by decide, ⟨2, by decide, by decide⟩, fun k hk => absurd hk (by omega)⟩
  refine ⟨scenario_waiting_wellFormed, hF, ?_⟩
  obtain ⟨t, h, hsame, _⟩ :=
    C4_round_robin_without_demotion scenario_waiting 0 0 0 scenario_waiting_wellFormed
      (by decide) (by decide) (Or.inl (by decide)) hF
  exact ⟨t, h, hsame rfl⟩

theorem C5_witness :
    QueueInv scenario_abc ∧ QueueInv scenario_abc_demoted ∧
      QueueInv (update_blocked_tasks 0 true scenario_abc) :=
  ⟨scenario_abc_wellFormed.1,
    ((C5_queue_membership_invariant scenario_abc scenario_abc_wellFormed.1).2.2.2.1 (some 3)
      scenario_abc_demoted (by rfl)).1,
    ((C5_queue_membership_invariant scenario_abc scenario_abc_wellFormed.1).2.2.2.2 0 true).1⟩

theorem C6_witness :
    scenario_abc.queues.length = 16 ∧
      ∃ s', enqueue_task scenario_abc 4 2 = some s' ∧ level s' 2 = [4] ∧
        (s'.heap 4).queue = 2 := by
  refine ⟨by decide, ?_⟩
  obtain ⟨s', h, hlev, hq, _⟩ :=
    (C6_enqueue_task_contract scenario_abc 4 2 (by decide)).2 (by decide) (by decide)
  exact ⟨s', h, hlev, hq⟩

theorem C7_witness :
    scenario_abc.queues.length = 16 ∧
      ∃ s' pre post, dequeue_task scenario_abc 2 = some s' ∧
        level scenario_abc 0 = pre ++ 2 :: post ∧ level s' 0 = pre ++ post := by
  refine ⟨by decide, ?_⟩
  obtain ⟨s', pre, post, h, hsplit, _, hlev, _⟩ :=
    (C7_dequeue_task_contract scenario_abc 2 (by decide)).2 (by decide) (by decide) (by decide)
  exact ⟨s', pre, post, h, hsplit, hlev⟩

theorem C8_witness :
    4 ∈ scenario_timer.queues.flatten ∧
      ((update_blocked_tasks 49 false scenario_timer).heap 4).state = task_state.PIT_WAIT ∧
      ((update_blocked_tasks 51 false scenario_timer).heap 4).state = task_state.RUNNABLE :=
  ⟨by decide, (C8_update_blocked_tasks_scan scenario_timer false 4).2 0 (by decide) (by decide)
    (by decide)⟩

theorem C9_witness :
    WellFormed scenario_abc ∧
      block_task scenario_abc 1 task_state.KB_WAIT = some scenario_abc_blocked ∧
      dispatches 1 scenario_abc_blocked = some scenario_abc_blocked_next ∧
      ((update_blocked_tasks 0 true scenario_abc_blocked_next).heap 1).state =
        task_state.RUNNABLE ∧
      ((update_blocked_tasks 0 true scenario_abc_blocked_next).heap 1).queue = 0 ∧
      1 ∈ level (update_blocked_tasks 0 true scenario_abc_blocked_next) 0 :=
  ⟨scenario_abc_wellFormed, by rfl, by rfl,
    (C9_blocked_task_keeps_priority scenario_abc scenario_abc_blocked
      scenario_abc_blocked_next 0 1 task_state.KB_WAIT 0 true scenario_abc_wellFormed
      (by decide) (Or.inr rfl) (by rfl) (by rfl)
      ⟨fun h => absurd h (by decide), fun _ => rfl⟩).2.2.1⟩

/-! ## Promotion, duplicates and task creation -/

theorem level_set_set (s : Sched) (k m j : Nat) (q1 q2 : List task_ptr)
    (hk : k < s.queues.length) (hm : m < s.queues.length)
    (hp : task_ptr → task_t) (c : task_ptr) :
    level ⟨hp, (s.queues.set k q1).set m q2, c⟩ j =
      if j = m then q2 else if j = k then q1 else level s j := by
  have h1 := level_set ⟨s.heap, s.queues.set k q1, s.current_task⟩ m j q2
    (by simpa using hm) hp c
  rw [h1, level_set s k j q1 hk]

theorem promote_task_step (s : Sched) (task : task_ptr) (L : Nat)
    (hlen : s.queues.length = 16) (hq : (s.heap task).queue = (L : Int))
    (hmem : task ∈ level s L) (h1 : 1 ≤ L) (h15 : L ≤ 15) :
    promote_task s task = some
      ⟨store s.heap task { s.heap task with queue := ((L - 1 : Nat) : Int) },
        (s.queues.set L ((level s L).erase task)).set (L - 1) (level s (L - 1) ++ [task]),
        s.current_task⟩ := by
  have hklen : L < s.queues.length := by omega
  unfold promote_task switch_queue
  rw [dequeue_task_valid s task L hklen (by omega) hq hmem]
  simp only
  have hcast : (s.heap task).queue - 1 = ((L - 1 : Nat) : Int) := by rw [hq]; omega
  rw [hcast, enqueue_task_valid _ task (L - 1) (by simp; omega) (by omega)]
  have hlev : level ⟨s.heap, s.queues.set L ((level s L).erase task), s.current_task⟩
      (L - 1) = level s (L - 1) := by
    rw [level_set s L (L - 1) _ hklen, if_neg (by omega)]
  rw [hlev]

/-- C20: with the sixteen queues in place, `promote_task` moves a task queued at its
recorded level `L`, `1 ≤ L ≤ 15`, to the tail of queue `L - 1` and records level `L - 1`,
leaving the other queues alone; for a task whose recorded level is `0` it halts (the
insertion into level `-1` is rejected, or the task is not found), whereas `demote_task`
returns the state unchanged for a task at level `15`. -/
theorem C20_promote_task_not_capped (s : Sched) (task : task_ptr)
    (h16 : s.queues.length = 16) :
    (∀ L : Nat, 1 ≤ L → L ≤ 15 → (s.heap task).queue = (L : Int) → task ∈ level s L →
      ∃ s', promote_task s task = some s' ∧
        level s' (L - 1) = level s (L - 1) ++ [task] ∧
        (s'.heap task).queue = (L : Int) - 1 ∧
        level s' L = (level s L).erase task ∧
        (∀ j, j ≠ L → j ≠ L - 1 → level s' j = level s j) ∧
        (∀ p, p ≠ task → s'.heap p = s.heap p)) ∧
    ((s.heap task).queue = 0 → promote_task s task = none) ∧
    ((s.heap task).queue = 15 → demote_task s task = some s) := by
  refine ⟨?_, ?_, ?_⟩
  · intro L h1 h15 hq hmem
    have hlev := fun j => level_set_set s L (L - 1) j ((level s L).erase task)
      (level s (L - 1) ++ [task]) (by omega) (by omega)
      (store s.heap task { s.heap task with queue := ((L - 1 : Nat) : Int) }) s.current_task
    refine ⟨_, promote_task_step s task L h16 hq hmem h1 h15, ?_, ?_, ?_, ?_, ?_⟩
    · rw [hlev, if_pos rfl]
    · simp only [store_same]; omega
    · rw [hlev, if_neg (by omega), if_pos rfl]
    · intro j hj1 hj2
      rw [hlev, if_neg hj2, if_neg hj1]
    · intro p hp
      exact store_other _ _ _ _ hp
  · intro hq
    unfold promote_task switch_queue
    cases hd : dequeue_task s task with
    | none => rfl
    | some s1 =>
      simp only
      have hbad : (s.heap task).queue - 1 < 0 ∨ (s.heap task).queue - 1 ≥ MLFQ_QUEUES := by
        left; rw [hq]; decide
      unfold enqueue_task
      rw [if_pos hbad]
  · intro hq
    unfold demote_task
    rw [if_pos (by rw [hq]; simp [MLFQ_QUEUES])]

theorem create_process_fst (k : Kernel) (task : task_ptr) : (create_process k task).1 = task :=
  rfl

/-- C14: on a scheduler with its sixteen queues, `create_process` followed by
`add_process` (which is what `fork` does) leaves the new task RUNNABLE with priority
level 0, as the last entry of queue 0; no other queue changes, no other record changes,
and the current task stays. -/
theorem C14_new_task_runnable_at_level_zero (k : Kernel) (task : task_ptr)
    (h16 : k.sched.queues.length = 16) :
    ∃ s2, add_process (create_process k task).2.sched (create_process k task).1 = some s2 ∧
      fork k task = some (k.next_pid, ⟨s2, wrap_int (k.next_pid + 1)⟩) ∧
      (s2.heap task).state = task_state.RUNNABLE ∧
      (s2.heap task).queue = 0 ∧
      level s2 0 = level k.sched 0 ++ [task] ∧
      (∀ j, j ≠ 0 → level s2 j = level k.sched j) ∧
      (∀ p, p ≠ task → s2.heap p = k.sched.heap p) ∧
      s2.current_task = k.sched.current_task := by
  have hinst : ¬ (!tasking_installed (create_process k task).2.sched) = true := by
    simp [tasking_installed, create_process, h16]
  have hlen : 0 < (create_process k task).2.sched.queues.length := by
    simp [create_process, h16]
  have hadd0 : add_process (create_process k task).2.sched (create_process k task).1 =
      enqueue_task (create_process k task).2.sched task ((0 : Nat) : Int) := by
    unfold add_process
    rw [if_neg hinst]
    rfl
  have hadd := hadd0.trans (enqueue_task_valid _ task 0 hlen (by omega))
  have hlev := fun j => level_set k.sched 0 j (level k.sched 0 ++ [task]) (by omega)
    (store (store k.sched.heap task ⟨k.next_pid, zero_task_state, 0, 0⟩) task
      { (store k.sched.heap task ⟨k.next_pid, zero_task_state, 0, 0⟩) task with
        queue := ((0 : Nat) : Int) }) k.sched.current_task
  refine ⟨_, hadd, ?_, ?_, ?_, ?_, ?_, ?_, rfl⟩
  · unfold fork
    rw [hadd]
    simp [create_process, store_same]
  · simp [create_process, store_same, zero_task_state]
  · simp [create_process, store_same]
  · exact (hlev 0).trans (if_pos rfl)
  · intro j hj
    exact (hlev j).trans (if_neg hj)
  · intro p hp
    simp [create_process, store_other _ _ _ _ hp]

theorem find_pid_foldl_some (heap : task_ptr → task_t) (id : Int) :
    ∀ (qs : List (List task_ptr)) (acc : Option task_ptr) (t : task_ptr),
      qs.foldl
        (fun found tasks =>
          match tasks.find? (fun tmp => decide ((heap tmp).id = id)) with
          | some tmp => some tmp
          | none => found) acc = some t →
      acc = some t ∨ (t ∈ qs.flatten ∧ (heap t).id = id) := by
  intro qs
  induction qs with
  | nil => intro acc t h; exact Or.inl h
  | cons q qs ih =>
    intro acc t h
    rw [List.foldl_cons] at h
    rcases ih _ t h with h1 | h1
    · cases hf : q.find? (fun tmp => decide ((heap tmp).id = id)) with
      | none => rw [hf] at h1; exact Or.inl h1
      | some u =>
        rw [hf] at h1
        cases h1
        right
        have hu := List.find?_some hf
        exact ⟨by rw [List.flatten_cons]; exact List.mem_append_left _ (List.mem_of_find?_eq_some hf),
          by simpa using hu⟩
    · right
      exact ⟨by rw [List.flatten_cons]; exact List.mem_append_right _ h1.1, h1.2⟩

theorem find_pid_foldl_none (heap : task_ptr → task_t) (id : Int) :
    ∀ (qs : List (List task_ptr)) (acc : Option task_ptr),
      qs.foldl
        (fun found tasks =>
          match tasks.find? (fun tmp => decide ((heap tmp).id = id)) with
          | some tmp => some tmp
          | none => found) acc = none →
      acc = none ∧ ∀ p, p ∈ qs.flatten → (heap p).id ≠ id := by
  intro qs
  induction qs with
  | nil => intro acc h; exact ⟨h, fun p hp => by cases hp⟩
  | cons q qs ih =>
    intro acc h
    rw [List.foldl_cons] at h
    obtain ⟨h1, h2⟩ := ih _ h
    cases hf : q.find? (fun tmp => decide ((heap tmp).id = id)) with
    | some u => rw [hf] at h1; cases h1
    | none =>
      rw [hf] at h1
      refine ⟨h1, fun p hp => ?_⟩
      rw [List.flatten_cons, List.mem_append] at hp
      rcases hp with hp | hp
      · have := List.find?_eq_none.1 hf p hp
        simpa using this
      · exact h2 p hp

theorem find_pid_some {heap : task_ptr → task_t} {qs : List (List task_ptr)} {id : Int}
    {t : task_ptr} (h : find_pid heap qs id = some t) :
    t ∈ qs.flatten ∧ (heap t).id = id := by
  rcases find_pid_foldl_some heap id qs none t h with h1 | h1
  · cases h1
  · exact h1

theorem find_pid_none {heap : task_ptr → task_t} {qs : List (List task_ptr)} {id : Int}
    (h : find_pid heap qs id = none) : ∀ p, p ∈ qs.flatten → (heap p).id ≠ id :=
  (find_pid_foldl_none heap id qs none h).2

/-- What `goto_pid` does when it returns with a current task in place: the new current task
is some queued task carrying the requested id; its state plays no part. -/
theorem goto_pid_some {s s' : Sched} {id : Int} (h : goto_pid s id = some s')
    (hcur : s.current_task ≠ 0) :
    s'.heap = s.heap ∧ s'.queues = s.queues ∧ s'.current_task ∈ s.queues.flatten ∧
      (s.heap s'.current_task).id = id := by
  unfold goto_pid at h
  rw [if_neg hcur] at h
  cases hf : find_pid s.heap s.queues id with
  | none => rw [hf] at h; cases h
  | some tmp =>
    rw [hf] at h
    cases h
    exact ⟨rfl, rfl, (find_pid_some hf).1, (find_pid_some hf).2⟩

/-- `goto_pid` halts exactly when a current task is in place and no queued task carries the
requested id. -/
theorem goto_pid_none_iff (s : Sched) (id : Int) :
    goto_pid s id = none ↔
      s.current_task ≠ 0 ∧ ∀ p, p ∈ s.queues.flatten → (s.heap p).id ≠ id := by
  unfold goto_pid
  by_cases hcur : s.current_task = 0
  · rw [if_pos hcur]
    constructor
    · intro h; cases h
    · intro h; exact absurd hcur h.1
  · rw [if_neg hcur]
    cases hf : find_pid s.heap s.queues id with
    | none =>
      constructor
      · intro _; exact ⟨hcur, find_pid_none hf⟩
      · intro _; rfl
    | some tmp =>
      constructor
      · intro h; cases h
      · intro h
        exact absurd (find_pid_some hf).2 (h.2 tmp (find_pid_some hf).1)

/-- C12: `goto_pid` does not look at the state of the task it finds. In
`scenario_abc_blocked` the only queued task with id `1` waits for input, so no RUNNABLE
task has id `1`; `goto_pid(1)` nevertheless returns and makes that waiting task the current
task. -/
theorem C12_goto_pid_switches_to_blocked_task :
    (∀ p, p ∈ scenario_abc_blocked.queues.flatten → (scenario_abc_blocked.heap p).id = 1 →
      (scenario_abc_blocked.heap p).state ≠ task_state.RUNNABLE) ∧
    (goto_pid scenario_abc_blocked 1).map (fun s => s.current_task) = some 1 ∧
    (goto_pid scenario_abc_blocked 1).map (fun s => (s.heap s.current_task).state) =
      some task_state.KB_WAIT := by
  decide

theorem CurrentQueued.level {s : Sched} (h : CurrentQueued s) :
    ∃ L : Nat, (s.heap s.current_task).queue = (L : Int) ∧ s.current_task ∈ level s L := by
  obtain ⟨h0, hmem⟩ := h
  obtain ⟨L, hL⟩ := Int.eq_ofNat_of_zero_le h0
  rw [hL] at hmem
  exact ⟨L, hL, by simpa using hmem⟩

theorem mem_level_lt {s : Sched} {k : Nat} {p : task_ptr} (h : p ∈ level s k) :
    k < s.queues.length := by
  by_contra hcon
  rw [level_of_le (by omega)] at h
  cases h

/-- The demotion step of `next_runnable_task` on a state with sixteen queues whose current
task is queued at its recorded level `L`: it never halts, it keeps every state and id, the
set of queued tasks and the current task, and it leaves the current task queued at its
recorded level. -/
theorem demotion_step_spec (s : Sched) (L : Nat) (h16 : s.queues.length = 16)
    (hL : (s.heap s.current_task).queue = (L : Int)) (hmem : s.current_task ∈ level s L) :
    ∃ s1, (if (s.heap s.current_task).state = task_state.RUNNABLE then
          demote_task s s.current_task else some s) = some s1 ∧
      s1.current_task = s.current_task ∧ s1.queues.length = 16 ∧
      (∀ p, (s1.heap p).state = (s.heap p).state ∧ (s1.heap p).id = (s.heap p).id) ∧
      (∀ p, p ∈ s1.queues.flatten ↔ p ∈ s.queues.flatten) ∧
      ((s.heap s.current_task).state = task_state.RUNNABLE →
        (s1.heap s.current_task).queue = if L < 15 then (L : Int) + 1 else 15) ∧
      ((s.heap s.current_task).state ≠ task_state.RUNNABLE → s1 = s) ∧
      CurrentQueued s1 := by
  have hL16 : L < 16 := by have := mem_level_lt hmem; omega
  have hcq : CurrentQueued s := ⟨by rw [hL]; omega, by rw [hL]; simpa using hmem⟩
  by_cases hrun : (s.heap s.current_task).state = task_state.RUNNABLE
  · by_cases hlt : L < 15
    · have hstep := demote_task_step s s.current_task L h16 hL hmem hlt
      have hlev := fun j => level_after_demote s L j (by omega)
        ((level s L).erase s.current_task) (level s (L + 1) ++ [s.current_task])
        (store s.heap s.current_task
          { s.heap s.current_task with queue := ((L + 1 : Nat) : Int) }) s.current_task
      refine ⟨_, (if_pos hrun).trans hstep, rfl, by simp [h16], ?_, ?_, ?_, ?_, ?_⟩
      · intro p
        by_cases hp : p = s.current_task
        · subst hp; simp [store_same]
        · simp [store_other _ _ _ _ hp]
      · intro p
        by_cases hp : p = s.current_task
        · rw [hp]
          constructor
          · intro _; exact (mem_flatten_iff_level s _).2 ⟨L, hmem⟩
          · intro _
            rw [mem_flatten_iff_level]
            exact ⟨L + 1, by rw [hlev, if_pos rfl]; simp⟩
        · have hfr := (demote_task_frame hstep hp).2
          rw [mem_flatten_iff_level, mem_flatten_iff_level]
          exact ⟨fun ⟨j, hj⟩ => ⟨j, (hfr j).1 hj⟩, fun ⟨j, hj⟩ => ⟨j, (hfr j).2 hj⟩⟩
      · intro _
        simp [store_same, hlt]
      · intro h; exact absurd hrun h
      · refine ⟨by simp [store_same]; omega, ?_⟩
        simp only [store_same]
        rw [Int.toNat_ofNat, hlev, if_pos rfl]
        simp
    · have hL15 : L = 15 := by omega
      have hdem : demote_task s s.current_task = some s := by
        unfold demote_task
        rw [if_pos (by rw [hL, hL15]; simp [MLFQ_QUEUES])]
      refine ⟨s, (if_pos hrun).trans hdem, rfl, h16, fun p => ⟨rfl, rfl⟩, fun p => Iff.rfl,
        ?_, fun _ => rfl, hcq⟩
      intro _
      rw [hL, hL15]; simp
  · exact ⟨s, if_neg hrun, rfl, h16, fun p => ⟨rfl, rfl⟩, fun p => Iff.rfl,
      fun h => absurd h hrun, fun _ => rfl, hcq⟩

theorem next_runnable_task_no_value_queues {s s' : Sched}
    (h : next_runnable_task s = some (none, s')) : s.queues = [] := by
  by_contra hne
  have hinst : ¬ (!tasking_installed s) = true := by
    simpa [tasking_installed] using hne
  unfold next_runnable_task at h
  rw [if_neg hinst] at h
  revert h
  split
  · intro h; cases h
  · simp only
    split_ifs
    · intro h; cases h
    all_goals
      split
      · intro h; cases h
      · split
        · intro h; cases h
        · split
          · intro h; cases h
          · split_ifs
            · intro h; cases h
            · split
              · intro h; cases h
              · intro h; cases h
            · intro h; cases h

/-- From a demotion-step state that holds a queued RUNNABLE task, `next_runnable_task`
returns. -/
theorem next_runnable_task_of_runnable {s s1 : Sched} {L : Nat}
    (hL : (s.heap s.current_task).queue = (L : Int)) (hmem : s.current_task ∈ level s L)
    (hdem : (if (s.heap s.current_task).state = task_state.RUNNABLE then
          demote_task s s.current_task else some s) = some s1)
    (hex : ∃ p, p ∈ s1.queues.flatten ∧ (s1.heap p).state = task_state.RUNNABLE) :
    ∃ t F, next_runnable_task s = some (some t, s1) ∧ FirstRunnableLevel s1 F ∧
      t ∈ level s1 F ∧ (s1.heap t).state = task_state.RUNNABLE := by
  obtain ⟨p, hp, hrun⟩ := hex
  obtain ⟨k, hk⟩ := (mem_flatten_iff_level s1 p).1 hp
  obtain ⟨F, hF⟩ := exists_first_runnable_level s1 k p hk hrun
  have hFl := first_queue_containing_runnable_some hF
  obtain ⟨t, ht⟩ := round_robin_exists s1.heap (level s1 F) (decide ((L : Int) = (F : Int)))
    (array_m_index (level s L) s.current_task) hFl.2.1
  have hs := round_robin_sound ht
  exact ⟨t, F, next_runnable_task_run hL hmem hdem hF ht, hFl, hs.1, hs.2⟩

/-- C16: with the sixteen queues in place, `next_runnable_task` halts exactly when the
current task does not occur in the queue of its recorded level, or the demotion step
leaves no RUNNABLE task in any queue; on a well-formed state with some queued RUNNABLE
task it returns a task. -/
theorem C16_next_runnable_task_failure (s : Sched) (h16 : s.queues.length = 16) :
    (next_runnable_task s = none ↔
      (¬ CurrentQueued s ∨
        ∃ s1, (if (s.heap s.current_task).state = task_state.RUNNABLE then
            demote_task s s.current_task else some s) = some s1 ∧
          ∀ p, p ∈ s1.queues.flatten → (s1.heap p).state ≠ task_state.RUNNABLE)) ∧
    (WellFormed s →
      (∃ p, p ∈ s.queues.flatten ∧ (s.heap p).state = task_state.RUNNABLE) →
      ∃ t s', next_runnable_task s = some (some t, s')) := by
  constructor
  · constructor
    · intro hnone
      by_cases hcq : CurrentQueued s
      · right
        obtain ⟨L, hL, hmem⟩ := hcq.level
        obtain ⟨s1, hdem, _⟩ := demotion_step_spec s L h16 hL hmem
        refine ⟨s1, hdem, fun p hp hrun => ?_⟩
        obtain ⟨t, F, ht, _⟩ := next_runnable_task_of_runnable hL hmem hdem ⟨p, hp, hrun⟩
        rw [hnone] at ht
        cases ht
      · exact Or.inl hcq
    · intro hor
      cases hres : next_runnable_task s with
      | none => rfl
      | some r =>
        exfalso
        obtain ⟨r1, s'⟩ := r
        cases r1 with
        | none =>
          have := next_runnable_task_no_value_queues hres
          rw [this] at h16
          cases h16
        | some t =>
          obtain ⟨L, hL, hmem, hdem, F, hF, hrr⟩ := next_runnable_task_inv hres
          rcases hor with hncq | ⟨s1, hdem1, hnone⟩
          · exact hncq ⟨by rw [hL]; omega, by rw [hL]; simpa using hmem⟩
          · rw [hdem] at hdem1
            cases hdem1
            obtain ⟨_, ⟨p, hp, hrun⟩, _⟩ := first_queue_containing_runnable_some hF
            exact hnone p ((mem_flatten_iff_level _ p).2 ⟨F, hp⟩) hrun
  · intro hwf ⟨p, hp, hrun⟩
    obtain ⟨L, hL, hmem⟩ := hwf.2.level
    obtain ⟨s1, hdem, _, _, hst, hfl, _⟩ := demotion_step_spec s L h16 hL hmem
    obtain ⟨t, _, ht, _⟩ := next_runnable_task_of_runnable hL hmem hdem
      ⟨p, (hfl p).2 hp, by rw [(hst p).1]; exact hrun⟩
    exact ⟨t, s1, ht⟩

/-- With distinct ids and a current task in place, a dispatch that returns installs the
task selected by `next_runnable_task`. -/
theorem task_switch_selects {s s' : Sched} (h16 : s.queues.length = 16)
    (hids : DistinctIds s) (hnn : s.current_task ≠ 0)
    (h : task_switch s = some s') :
    ∃ next s1, next_runnable_task s = some (some next, s1) ∧
      s' = ⟨s1.heap, s1.queues, next⟩ ∧ (s1.heap next).state = task_state.RUNNABLE := by
  unfold task_switch at h
  cases hres : next_runnable_task s with
  | none => rw [hres] at h; cases h
  | some r =>
    obtain ⟨r1, s1⟩ := r
    cases r1 with
    | none => rw [hres] at h; cases h
    | some next =>
      rw [hres] at h
      simp only at h
      by_cases hrun : (s1.heap next).state = task_state.RUNNABLE
      · rw [if_pos hrun] at h
        obtain ⟨L, hL, hmem, hdem, F, hF, hrr⟩ := next_runnable_task_inv hres
        obtain ⟨s1', hdem', hcur1, _, hst, hfl, _⟩ := demotion_step_spec s L h16 hL hmem
        rw [hdem] at hdem'
        cases hdem'
        obtain ⟨hheap, hqueues, hin, hid⟩ := goto_pid_some h (by rw [hcur1]; exact hnn)
        have hnext : next ∈ s1.queues.flatten :=
          (mem_flatten_iff_level s1 next).2 ⟨F, (round_robin_sound hrr).1⟩
        have heq : s'.current_task = next := by
          apply hids _ ((hfl _).1 hin) _ ((hfl _).1 hnext)
          rw [← (hst _).2, ← (hst _).2]
          exact hid
        refine ⟨next, s1, rfl, ?_, hrun⟩
        cases s' with
        | mk heap queues cur =>
          simp only at hheap hqueues heq
          rw [hheap, hqueues, heq]
      · rw [if_neg hrun] at h; cases h

theorem block_task_state_wf {s : Sched} (task : task_ptr) (reason : task_state)
    (h16 : s.queues.length = 16) (hcq : CurrentQueued s) (hids : DistinctIds s) :
    (⟨store s.heap task { s.heap task with state := reason }, s.queues,
        s.current_task⟩ : Sched).queues.length = 16 ∧
    CurrentQueued ⟨store s.heap task { s.heap task with state := reason }, s.queues,
      s.current_task⟩ ∧
    DistinctIds ⟨store s.heap task { s.heap task with state := reason }, s.queues,
      s.current_task⟩ := by
  have hq : ∀ p, ((store s.heap task { s.heap task with state := reason }) p).queue =
      (s.heap p).queue := by
    intro p
    by_cases hp : p = task
    · subst hp; simp [store_same]
    · rw [store_other _ _ _ _ hp]
  have hi : ∀ p, ((store s.heap task { s.heap task with state := reason }) p).id =
      (s.heap p).id := by
    intro p
    by_cases hp : p = task
    · subst hp; simp [store_same]
    · rw [store_other _ _ _ _ hp]
  refine ⟨h16, ?_, ?_⟩
  · unfold CurrentQueued
    simp only [hq]
    exact hcq
  · intro p hp q hq' hpq
    simp only [hi] at hpq
    exact hids p hp q hq' hpq

/-- C18: in a well-formed state with pairwise distinct task ids and a current task in
place, a `task_switch` that returns installs as current task exactly the task returned by
`next_runnable_task`, and that task is RUNNABLE; hence after `block_task` has put the
current task into a state other than RUNNABLE, and after `_kill`, the task is no longer
the current task. -/
theorem C18_dispatch_installs_runnable_task (s : Sched) (hwf : WellFormed s)
    (hids : DistinctIds s) (hnn : s.current_task ≠ 0) :
    (∀ s', task_switch s = some s' →
      ∃ next s1, next_runnable_task s = some (some next, s1) ∧
        s'.current_task = next ∧ s'.heap = s1.heap ∧ s'.queues = s1.queues ∧
        (s'.heap s'.current_task).state = task_state.RUNNABLE) ∧
    (∀ reason s', reason ≠ task_state.RUNNABLE →
      block_task s s.current_task reason = some s' →
      (s'.heap s.current_task).state = reason ∧
        (s'.heap s'.current_task).state = task_state.RUNNABLE ∧
        s'.current_task ≠ s.current_task) ∧
    (∀ s', _kill s = some s' →
      (s'.heap s.current_task).state = task_state.ZOMBIE ∧
        (s'.heap s'.current_task).state = task_state.RUNNABLE ∧
        s'.current_task ≠ s.current_task) := by
  have h16 : s.queues.length = 16 := hwf.1.1
  have hinst : s.queues ≠ [] := by
    intro h0; rw [h0] at h16; cases h16
  have hblock : ∀ reason s', reason ≠ task_state.RUNNABLE →
      block_task s s.current_task reason = some s' →
      (s'.heap s.current_task).state = reason ∧
        (s'.heap s'.current_task).state = task_state.RUNNABLE ∧
        s'.current_task ≠ s.current_task := by
    intro reason s' hreason hb
    have hsw := block_task_inv hinst hb
    obtain ⟨h16', _, hids'⟩ := block_task_state_wf s.current_task reason h16 hwf.2 hids
    obtain ⟨next, s1, hn, rfl, hrun⟩ := task_switch_selects h16' hids' hnn hsw
    have hs1 := next_runnable_task_not_runnable
      (s := ⟨store s.heap s.current_task { s.heap s.current_task with state := reason },
        s.queues, s.current_task⟩) (by simpa [store_same] using hreason) hn
    subst hs1
    have hst : ((store s.heap s.current_task
        { s.heap s.current_task with state := reason }) s.current_task).state = reason := by
      simp [store_same]
    refine ⟨hst, hrun, ?_⟩
    intro heq
    simp only at heq
    rw [heq, hst] at hrun
    exact hreason hrun
  refine ⟨?_, hblock, ?_⟩
  · intro s' h
    obtain ⟨next, s1, hn, rfl, hrun⟩ := task_switch_selects h16 hids hnn h
    exact ⟨next, s1, hn, rfl, rfl, rfl, hrun⟩
  · intro s' hk
    have hi : ¬ (!tasking_installed s) = true := by
      simpa [tasking_installed] using hinst
    unfold _kill at hk
    rw [if_neg hi] at hk
    exact hblock task_state.ZOMBIE s' (by decide) hk

/-- One dispatch round of a lone RUNNABLE current task. -/
theorem lone_runnable_step (s : Sched) (L : Nat) (hwf : WellFormed s)
    (hL : (s.heap s.current_task).queue = (L : Int))
    (hrun : (s.heap s.current_task).state = task_state.RUNNABLE)
    (honly : ∀ p, p ∈ s.queues.flatten → (s.heap p).state = task_state.RUNNABLE →
      p = s.current_task) :
    ∃ s1, next_runnable_task s = some (some s.current_task, s1) ∧
      s1.current_task = s.current_task ∧
      (s1.heap s.current_task).queue = ((min (L + 1) 15 : Nat) : Int) ∧
      WellFormed s1 ∧ (s1.heap s.current_task).state = task_state.RUNNABLE ∧
      (∀ p, (s1.heap p).id = (s.heap p).id) ∧
      (∀ p, p ∈ s1.queues.flatten ↔ p ∈ s.queues.flatten) ∧
      (∀ p, p ∈ s1.queues.flatten → (s1.heap p).state = task_state.RUNNABLE →
        p = s.current_task) := by
  obtain ⟨hmem, hL16⟩ := hwf.level_lt hL
  obtain ⟨s1, hdem, hcur, _, hst, hfl, hq, _, hcq1⟩ :=
    demotion_step_spec s L hwf.1.1 hL hmem
  have hcurq : s.current_task ∈ s.queues.flatten := (mem_flatten_iff_level s _).2 ⟨L, hmem⟩
  obtain ⟨t, F, ht, _, htF, htrun⟩ := next_runnable_task_of_runnable hL hmem hdem
    ⟨s.current_task, (hfl _).2 hcurq, by rw [(hst _).1]; exact hrun⟩
  have htq : t ∈ s1.queues.flatten := (mem_flatten_iff_level s1 t).2 ⟨F, htF⟩
  have hteq : t = s.current_task :=
    honly t ((hfl t).1 htq) (by rw [← (hst t).1]; exact htrun)
  rw [hteq] at ht
  refine ⟨s1, ht, hcur, ?_, ⟨(next_runnable_task_preserves hwf.1 ht).1, hcq1⟩, ?_,
    fun p => (hst p).2, hfl, ?_⟩
  · rw [hq hrun]
    by_cases hlt : L < 15
    · rw [if_pos hlt, Nat.min_eq_left (by omega)]; rfl
    · rw [if_neg hlt, Nat.min_eq_right (by omega)]; rfl
  · rw [(hst _).1]; exact hrun
  · intro p hp hprun
    exact honly p ((hfl p).1 hp) (by rw [← (hst p).1]; exact hprun)

theorem lone_runnable_dispatches (n : Nat) :
    ∀ (s : Sched) (L : Nat), WellFormed s → DistinctIds s → s.current_task ≠ 0 →
      (s.heap s.current_task).queue = (L : Int) →
      (s.heap s.current_task).state = task_state.RUNNABLE →
      (∀ p, p ∈ s.queues.flatten → (s.heap p).state = task_state.RUNNABLE →
        p = s.current_task) →
      ∃ s', dispatches n s = some s' ∧ s'.current_task = s.current_task ∧
        (s'.heap s.current_task).queue = ((min (L + n) 15 : Nat) : Int) := by
  induction n with
  | zero =>
    intro s L hwf _ _ hL _ _
    have := (hwf.level_lt hL).2
    exact ⟨s, rfl, rfl, by rw [hL, Nat.add_zero, Nat.min_eq_left (by omega)]⟩
  | succ n ih =>
    intro s L hwf hids hnn hL hrun honly
    obtain ⟨s1, hn, hcur, hq, hwf1, hrun1, hid1, hfl1, honly1⟩ :=
      lone_runnable_step s L hwf hL hrun honly
    have hcurq : s.current_task ∈ s1.queues.flatten :=
      (hfl1 _).2 ((mem_flatten_iff_level s _).2 ⟨L, (hwf.level_lt hL).1⟩)
    have hids1 : DistinctIds s1 := by
      intro p hp q hq' hpq
      rw [hid1, hid1] at hpq
      exact hids p ((hfl1 p).1 hp) q ((hfl1 q).1 hq') hpq
    -- the dispatch installs the current task again
    have hfind : ∃ tmp, find_pid s1.heap s1.queues (s1.heap s.current_task).id = some tmp := by
      cases hf : find_pid s1.heap s1.queues (s1.heap s.current_task).id with
      | none => exact absurd rfl (find_pid_none hf _ hcurq)
      | some tmp => exact ⟨tmp, rfl⟩
    obtain ⟨tmp, htmp⟩ := hfind
    have htmpeq : tmp = s.current_task :=
      hids1 _ (find_pid_some htmp).1 _ hcurq (find_pid_some htmp).2
    have hsw : task_switch s = some ⟨s1.heap, s1.queues, s.current_task⟩ := by
      unfold task_switch
      rw [hn]
      simp only
      rw [if_pos hrun1]
      unfold goto_pid
      rw [if_neg (by rw [hcur]; exact hnn), htmp, htmpeq]
    have hs1eq : (⟨s1.heap, s1.queues, s.current_task⟩ : Sched) = s1 := by
      cases s1 with
      | mk heap queues cur =>
        simp only at hcur
        rw [hcur]
    rw [hs1eq] at hsw
    obtain ⟨s', hd, hc', hq'⟩ := ih s1 (min (L + 1) 15) hwf1 hids1 (by rw [hcur]; exact hnn)
      (by rw [hcur]; exact hq) (by rw [hcur]; exact hrun1)
      (by rw [hcur]; exact honly1)
    refine ⟨s', ?_, by rw [hc', hcur], ?_⟩
    · unfold dispatches
      rw [hsw]
      exact hd
    · rw [hcur] at hq'
      rw [hq']
      congr 1
      omega

/-- C19: in a well-formed state whose current task, at level `L`, is the only RUNNABLE task
in the queues, `next_runnable_task` returns the current task itself and leaves it at level
`min (L + 1) 15`; with pairwise distinct ids and a current task in place, `n` dispatches in
a row keep it the current task and leave it at level `min (L + n) 15`. -/
theorem C19_lone_runnable_task_reselected (s : Sched) (L : Nat) (hwf : WellFormed s)
    (hL : (s.heap s.current_task).queue = (L : Int))
    (hrun : (s.heap s.current_task).state = task_state.RUNNABLE)
    (honly : ∀ p, p ∈ s.queues.flatten → (s.heap p).state = task_state.RUNNABLE →
      p = s.current_task) :
    (∃ s1, next_runnable_task s = some (some s.current_task, s1) ∧
      (s1.heap s.current_task).queue = ((min (L + 1) 15 : Nat) : Int) ∧
      s.current_task ∈ level s1 (min (L + 1) 15)) ∧
    (DistinctIds s → s.current_task ≠ 0 →
      ∀ n, ∃ s', dispatches n s = some s' ∧ s'.current_task = s.current_task ∧
        (s'.heap s.current_task).queue = ((min (L + n) 15 : Nat) : Int)) := by
  constructor
  · obtain ⟨s1, hn, hcur, hq, hwf1, _⟩ := lone_runnable_step s L hwf hL hrun honly
    refine ⟨s1, hn, hq, ?_⟩
    have := hwf1.2.2
    rw [hcur, hq, Int.toNat_ofNat] at this
    exact this
  · intro hids hnn n
    exact lone_runnable_dispatches n s L hwf hids hnn hL hrun honly

theorem eraseIdx_length_append (pre : List task_ptr) (a : task_ptr) (rest : List task_ptr) :
    (pre ++ a :: rest).eraseIdx pre.length = pre ++ rest := by
  induction pre with
  | nil => rfl
  | cons x xs ih => simp [List.eraseIdx, ih]

theorem getElem?_length_append (pre : List task_ptr) (rest : List task_ptr) :
    (pre ++ rest)[pre.length]? = rest.head? := by
  rw [List.getElem?_append_right (Nat.le_refl _), Nat.sub_self]
  cases rest <;> simp

theorem reap_queue_past_end (heap : task_ptr → task_t) (fuel j : Nat) (q : List task_ptr)
    (h : q.length ≤ j) : reap_queue heap fuel j q = q := by
  cases fuel with
  | zero => rfl
  | succ n => simp [reap_queue, List.getElem?_eq_none h]

theorem reap_list_cons_of_not_zombie (heap : task_ptr → task_t) (a : task_ptr)
    (rest : List task_ptr) (ha : (heap a).state ≠ task_state.ZOMBIE) :
    reap_list heap (a :: rest) = a :: reap_list heap rest := by
  cases rest with
  | nil => simp [reap_list, ha]
  | cons b rest => simp [reap_list, ha]

/-- The index loop of `reap` computes the list form of the scan on the entries from its
index on, and leaves the entries in front of the index in place. -/
theorem reap_queue_eq_reap_list (heap : task_ptr → task_t) (fuel : Nat) :
    ∀ (pre rest : List task_ptr), rest.length ≤ fuel →
      reap_queue heap fuel pre.length (pre ++ rest) = pre ++ reap_list heap rest := by
  induction fuel with
  | zero =>
    intro pre rest h
    have : rest = [] := List.length_eq_zero.1 (by omega)
    subst this
    simp [reap_queue, reap_list]
  | succ n ih =>
    intro pre rest h
    cases rest with
    | nil => simp [reap_queue, reap_list]
    | cons a rest =>
      have hget : (pre ++ a :: rest)[pre.length]? = some a := by
        rw [getElem?_length_append]; rfl
      have hrem : array_m_remove (pre ++ a :: rest) (pre.length : Int) = pre ++ rest := by
        simp [array_m_remove, eraseIdx_length_append]
      have hlen : rest.length ≤ n := by simpa using h
      simp only [reap_queue, hget, hrem]
      by_cases hz : (heap a).state = task_state.ZOMBIE
      · rw [if_pos hz]
        cases rest with
        | nil =>
          rw [List.append_nil, reap_queue_past_end heap n _ pre (by omega)]
          simp [reap_list, hz]
        | cons b rest =>
          have h1 := ih (pre ++ [b]) rest (by simp at hlen; omega)
          simp only [List.length_append, List.length_singleton, List.append_assoc,
            List.singleton_append] at h1
          rw [h1]
          simp [reap_list, hz]
      · rw [if_neg hz]
        have h1 := ih (pre ++ [a]) rest hlen
        simp only [List.length_append, List.length_singleton, List.append_assoc,
          List.singleton_append] at h1
        rw [h1, reap_list_cons_of_not_zombie heap a rest hz]

theorem level_reap_scan (s : Sched) (k : Nat) :
    level (reap_scan s) k = reap_list s.heap (level s k) := by
  unfold level reap_scan
  simp only [List.getElem?_map]
  cases hq : s.queues[k]? with
  | none => simp [reap_list]
  | some q =>
    simp only [Option.map_some', Option.getD_some]
    have := reap_queue_eq_reap_list s.heap q.length [] q (Nat.le_refl _)
    simpa using this

theorem filter_cons_true (p : task_ptr → Bool) (a : task_ptr) (l : List task_ptr)
    (h : p a = true) : (a :: l).filter p = a :: l.filter p := by
  rw [List.filter_cons, if_pos h]

theorem filter_cons_false (p : task_ptr → Bool) (a : task_ptr) (l : List task_ptr)
    (h : p a = false) : (a :: l).filter p = l.filter p := by
  rw [List.filter_cons, if_neg (by rw [h]; decide)]

theorem reap_list_filter (heap : task_ptr → task_t) (q : List task_ptr) :
    (reap_list heap q).filter (fun p => decide ((heap p).state ≠ task_state.ZOMBIE)) =
      q.filter (fun p => decide ((heap p).state ≠ task_state.ZOMBIE)) := by
  induction q using reap_list.induct heap with
  | case1 => rfl
  | case2 a ha => simp [reap_list, ha]
  | case3 a ha => simp [reap_list, ha]
  | case4 a b rest ha ih =>
    rw [reap_list, if_pos ha,
      filter_cons_false (fun p => decide ((heap p).state ≠ task_state.ZOMBIE)) a (b :: rest)
        (by simp [ha]),
      List.filter_cons, List.filter_cons, ih]
  | case5 a b rest ha ih =>
    rw [reap_list, if_neg ha,
      filter_cons_true (fun p => decide ((heap p).state ≠ task_state.ZOMBIE)) a _
        (by simp [ha]),
      filter_cons_true (fun p => decide ((heap p).state ≠ task_state.ZOMBIE)) a _
        (by simp [ha]), ih]

theorem reap_list_sublist (heap : task_ptr → task_t) (q : List task_ptr) :
    (reap_list heap q).Sublist q := by
  induction q using reap_list.induct heap with
  | case1 => exact List.Sublist.refl _
  | case2 a ha => simp [reap_list, ha]
  | case3 a ha => simp [reap_list, ha]
  | case4 a b rest ha ih =>
    rw [reap_list, if_pos ha]
    exact (ih.cons₂ b).cons a
  | case5 a b rest ha ih =>
    rw [reap_list, if_neg ha]
    exact ih.cons₂ a

/-- When no ZOMBIE stands directly behind another ZOMBIE, one scan removes every ZOMBIE. -/
theorem reap_list_of_no_adjacent (heap : task_ptr → task_t) (q : List task_ptr)
    (h : q.Chain' (fun a b => ¬ ((heap a).state = task_state.ZOMBIE ∧
      (heap b).state = task_state.ZOMBIE))) :
    reap_list heap q = q.filter (fun p => decide ((heap p).state ≠ task_state.ZOMBIE)) := by
  induction q using reap_list.induct heap with
  | case1 => rfl
  | case2 a ha => simp [reap_list, ha]
  | case3 a ha => simp [reap_list, ha]
  | case4 a b rest ha ih =>
    rw [List.chain'_cons] at h
    have hb : (heap b).state ≠ task_state.ZOMBIE := fun hb => h.1 ⟨ha, hb⟩
    have hrest : rest.Chain' (fun a b => ¬ ((heap a).state = task_state.ZOMBIE ∧
        (heap b).state = task_state.ZOMBIE)) := by
      cases rest with
      | nil => exact List.chain'_nil
      | cons c rest => exact (List.chain'_cons.1 h.2).2
    rw [reap_list, if_pos ha, ih hrest]
    simp [List.filter_cons, ha, hb]
  | case5 a b rest ha ih =>
    rw [List.chain'_cons] at h
    rw [reap_list, if_neg ha, ih h.2]
    simp [List.filter_cons, ha]

/-- A scan of a queue that holds a ZOMBIE removes at least one ZOMBIE. -/
theorem reap_list_countP (heap : task_ptr → task_t) (q : List task_ptr) :
    (reap_list heap q).countP (fun p => decide ((heap p).state = task_state.ZOMBIE)) ≤
      q.countP (fun p => decide ((heap p).state = task_state.ZOMBIE)) - 1 := by
  induction q using reap_list.induct heap with
  | case1 => simp [reap_list]
  | case2 a ha => simp [reap_list, ha]
  | case3 a ha => simp [reap_list, ha]
  | case4 a b rest ha ih =>
    rw [reap_list, if_pos ha]
    have hsub := (reap_list_sublist heap rest).countP_le
      (fun p => decide ((heap p).state = task_state.ZOMBIE))
    simp only [List.countP_cons, ha, decide_True, if_true]
    split_ifs <;> omega
  | case5 a b rest ha ih =>
    rw [reap_list, if_neg ha]
    simp only [List.countP_cons, ha, decide_False, Bool.false_eq_true, if_false,
      Nat.add_zero] at ih ⊢
    exact ih

theorem reap_list_iterate (heap : task_ptr → task_t) (n : Nat) :
    ∀ q : List task_ptr,
      q.countP (fun p => decide ((heap p).state = task_state.ZOMBIE)) ≤ n →
      (reap_list heap)^[n] q =
        q.filter (fun p => decide ((heap p).state ≠ task_state.ZOMBIE)) := by
  induction n with
  | zero =>
    intro q h
    have h0 : q.countP (fun p => decide ((heap p).state = task_state.ZOMBIE)) = 0 := by omega
    rw [List.countP_eq_zero] at h0
    rw [Function.iterate_zero, id_eq, eq_comm, List.filter_eq_self]
    intro a ha
    simpa using h0 a ha
  | succ n ih =>
    intro q h
    rw [Function.iterate_succ_apply, ih, reap_list_filter]
    have := reap_list_countP heap q
    omega

theorem reap_scan_iterate (n : Nat) :
    ∀ s : Sched, (reap_scan^[n] s).heap = s.heap ∧
      ∀ k, level (reap_scan^[n] s) k = (reap_list s.heap)^[n] (level s k) := by
  induction n with
  | zero => intro s; exact ⟨rfl, fun _ => rfl⟩
  | succ n ih =>
    intro s
    rw [Function.iterate_succ_apply]
    obtain ⟨h1, h2⟩ := ih (reap_scan s)
    refine ⟨h1, fun k => ?_⟩
    rw [h2 k, Function.iterate_succ_apply, level_reap_scan]
    rfl

/-- C11: one reaper scan changes no task record and removes only ZOMBIE entries: in every
queue the entries that are not ZOMBIE are the same as before and in the same order, and
the queue is a sublist of what it was. If no ZOMBIE stands directly behind another one, the
scan leaves exactly the entries that are not ZOMBIE; in any case, as many scans as there
are ZOMBIE entries in a queue leave exactly those entries, in their order. -/
theorem C11_reap_scan_keeps_other_tasks (s : Sched) (k : Nat) :
    (reap_scan s).heap = s.heap ∧ (reap_scan s).current_task = s.current_task ∧
    (level (reap_scan s) k).filter (fun p => decide ((s.heap p).state ≠ task_state.ZOMBIE)) =
      (level s k).filter (fun p => decide ((s.heap p).state ≠ task_state.ZOMBIE)) ∧
    (level (reap_scan s) k).Sublist (level s k) ∧
    ((level s k).Chain' (fun a b => ¬ ((s.heap a).state = task_state.ZOMBIE ∧
        (s.heap b).state = task_state.ZOMBIE)) →
      level (reap_scan s) k =
        (level s k).filter (fun p => decide ((s.heap p).state ≠ task_state.ZOMBIE))) ∧
    (∀ n, (level s k).countP (fun p => decide ((s.heap p).state = task_state.ZOMBIE)) ≤ n →
      level (reap_scan^[n] s) k =
        (level s k).filter (fun p => decide ((s.heap p).state ≠ task_state.ZOMBIE))) := by
  refine ⟨rfl, rfl, ?_, ?_, ?_, ?_⟩
  · rw [level_reap_scan]; exact reap_list_filter s.heap _
  · rw [level_reap_scan]; exact reap_list_sublist s.heap _
  · intro h
    rw [level_reap_scan]; exact reap_list_of_no_adjacent s.heap _ h
  · intro n h
    rw [(reap_scan_iterate n s).2 k]
    exact reap_list_iterate s.heap n _ h

theorem wrap_int_of_range (x : Int) (h1 : -2147483648 ≤ x) (h2 : x < 2147483648) :
    wrap_int x = x := by
  unfold wrap_int
  omega

theorem create_processes_ids (tasks : List task_ptr) :
    ∀ k : Kernel, -2147483649 ≤ k.next_pid → k.next_pid + tasks.length ≤ 2147483647 →
      (create_processes k tasks).1 =
        (List.range tasks.length).map (fun i : Nat => k.next_pid + (i : Int)) := by
  induction tasks with
  | nil => intro k _ _; rfl
  | cons task rest ih =>
    intro k h1 h2
    simp only [List.length_cons, Nat.cast_add, Nat.cast_one] at h2
    have hnext : (create_process k task).2.next_pid = k.next_pid + 1 :=
      wrap_int_of_range _ (by omega) (by omega)
    have hid : ((create_process k task).2.sched.heap (create_process k task).1).id =
        k.next_pid := by
      simp [create_process, store_same]
    rw [create_processes, hid, ih _ (by rw [hnext]; omega) (by rw [hnext]; omega), hnext,
      List.length_cons, List.range_succ_eq_map, List.map_cons, List.map_map]
    simp only [Nat.cast_zero, add_zero, List.cons.injEq, true_and]
    apply List.map_congr_left
    intro i _
    simp only [Function.comp_apply, Nat.succ_eq_add_one, Nat.cast_add, Nat.cast_one]
    omega

theorem fork_inv {k k' : Kernel} {task : task_ptr} {r : Int}
    (h : fork k task = some (r, k')) :
    r = k.next_pid ∧ (k'.sched.heap task).id = k.next_pid ∧
      k'.next_pid = wrap_int (k.next_pid + 1) := by
  unfold fork at h
  cases hadd : add_process (create_process k task).2.sched (create_process k task).1 with
  | none => rw [hadd] at h; cases h
  | some s2 =>
    rw [hadd] at h
    simp only [Option.some.injEq, Prod.mk.injEq] at h
    have hid : (s2.heap task).id = k.next_pid := by
      unfold add_process at hadd
      split_ifs at hadd
      · cases hadd
        simp [create_process, store_same]
      · obtain ⟨n, _, _, _, rfl⟩ := enqueue_task_inv hadd
        simp [create_process, store_same]
    obtain ⟨h1, h2⟩ := h
    subst h2
    exact ⟨by rw [← h1]; exact hid, hid, rfl⟩

/-- C13: two creations with the counter at the largest `int`: the first task gets id
`2147483647`, the counter wraps, and the second task gets id `-2147483648`, which is
neither positive nor greater than the first. -/
theorem C13_id_counter_wraps :
    (create_processes ⟨scenario_abc, 2147483647⟩ [7, 8]).1 = [2147483647, -2147483648] ∧
    ¬ (∀ id, id ∈ (create_processes ⟨scenario_abc, 2147483647⟩ [7, 8]).1 → 0 < id) ∧
    ¬ ((create_processes ⟨scenario_abc, 2147483647⟩ [7, 8]).1.Pairwise (fun a b => a < b)) := by
  decide

/-- C13 as amended: `create_process` gives the new task the current value of `next_pid`
and then increments the counter, which is a 32-bit `int`. While the counter is positive
and the creations do not take it past `2147483647`, the ids of any sequence of creations
are the successive counter values: positive, strictly increasing in creation order and
pairwise distinct, and greater than the id of every queued task (the kernel task among
them) when the queued ids are below the counter. Under that same condition the id that
`fork` returns to the creator is the new task's id, is positive, and differs from the id
of every queued task, the creator included. -/
theorem C13_ids_unique_and_increasing (k : Kernel) (tasks : List task_ptr)
    (hpos : 1 ≤ k.next_pid) (hbound : k.next_pid + tasks.length ≤ 2147483647) :
    (∀ task, ((create_process k task).2.sched.heap task).id = k.next_pid ∧
      (create_process k task).2.next_pid = wrap_int (k.next_pid + 1) ∧
      (k.next_pid < 2147483647 → (create_process k task).2.next_pid = k.next_pid + 1)) ∧
    (create_processes k tasks).1 =
      (List.range tasks.length).map (fun i : Nat => k.next_pid + (i : Int)) ∧
    (∀ id, id ∈ (create_processes k tasks).1 → 0 < id) ∧
    (create_processes k tasks).1.Pairwise (fun a b => a < b) ∧
    (create_processes k tasks).1.Nodup ∧
    (IdsBelowCounter k →
      ∀ id, id ∈ (create_processes k tasks).1 →
        ∀ p, p ∈ k.sched.queues.flatten → (k.sched.heap p).id < id) ∧
    (IdsBelowCounter k →
      ∀ task r k', fork k task = some (r, k') →
        r = (k'.sched.heap task).id ∧ 0 < r ∧
        (∀ p, p ∈ k.sched.queues.flatten → (k.sched.heap p).id ≠ r) ∧
        (CurrentQueued k.sched → (k.sched.heap k.sched.current_task).id ≠ r)) := by
  have hids := create_processes_ids tasks k (by omega) hbound
  have hmem : ∀ id, id ∈ (create_processes k tasks).1 → k.next_pid ≤ id := by
    intro id hid
    rw [hids, List.mem_map] at hid
    obtain ⟨i, _, rfl⟩ := hid
    omega
  have hpw : (create_processes k tasks).1.Pairwise (fun a b => a < b) := by
    rw [hids, List.pairwise_map]
    exact (List.pairwise_lt_range _).imp (fun h => by omega)
  refine ⟨?_, hids, ?_, hpw, ?_, ?_, ?_⟩
  · intro task
    refine ⟨by simp [create_process, store_same], rfl, fun h => ?_⟩
    exact wrap_int_of_range _ (by omega) (by omega)
  · intro id hid
    have := hmem id hid
    omega
  · exact hpw.imp (fun h => ne_of_lt h)
  · intro hbelow id hid p hp
    have := hmem id hid
    have := hbelow p hp
    omega
  · intro hbelow task r k' hf
    obtain ⟨hr, hid, _⟩ := fork_inv hf
    refine ⟨by rw [hr, hid], by omega, ?_, ?_⟩
    · intro p hp
      have := hbelow p hp
      omega
    · intro hcq
      obtain ⟨L, _, hmemL⟩ := hcq.level
      have := hbelow _ ((mem_flatten_iff_level _ _).2 ⟨L, hmemL⟩)
      omega

theorem guard_held_append (a : List guard_event) :
    ∀ (h : Bool) (b : List guard_event),
      guard_held h (a ++ b) = guard_held (guard_held h a) b := by
  induction a with
  | nil => intro h b; rfl
  | cons e es ih =>
    intro h b
    cases e <;> simp [guard_held, ih]

theorem scenario_lone_wellFormed : WellFormed scenario_lone := by
  unfold WellFormed QueueInv CurrentQueued
  decide

theorem scenario_abc_distinctIds : DistinctIds scenario_abc := by
  unfold DistinctIds
  decide

/-- The state that `tasking_install` builds from `boot_kernel`, with the kernel task at
address `10` and the idle, reaper and sentinel tasks at `11`, `12`, `13`: the four tasks
are queued at level 0 in that order with ids `1` to `4`, the kernel task is current, and
the state is well formed with distinct ids below the counter. -/
theorem tasking_install_boot :
    ∃ k, tasking_install boot_kernel 10 11 12 13 = some k ∧
      level k.sched 0 = [10, 11, 12, 13] ∧ k.sched.current_task = 10 ∧
      [10, 11, 12, 13].map (fun p => (k.sched.heap p).id) = [1, 2, 3, 4] ∧
      k.next_pid = 5 ∧ WellFormed k.sched ∧ DistinctIds k.sched ∧ IdsBelowCounter k := by
  refine ⟨_, rfl, by decide, by decide, by decide, by decide, ?_, ?_, ?_⟩
  · unfold WellFormed QueueInv CurrentQueued
    decide
  · unfold DistinctIds
    decide
  · unfold IdsBelowCounter
    decide

theorem scenario_abc_idsBelowCounter : IdsBelowCounter ⟨scenario_abc, 4⟩ := by
  unfold IdsBelowCounter
  decide

theorem C11_witness :
    (level scenario_zombies 0).countP
        (fun p => decide ((scenario_zombies.heap p).state = task_state.ZOMBIE)) ≤ 2 ∧
      level (reap_scan^[2] scenario_zombies) 0 =
        (level scenario_zombies 0).filter
          (fun p => decide ((scenario_zombies.heap p).state ≠ task_state.ZOMBIE)) :=
  ⟨by decide, (C11_reap_scan_keeps_other_tasks scenario_zombies 0).2.2.2.2.2 2 (by decide)⟩

theorem C13_witness :
    (1 : Int) ≤ 4 ∧ (4 : Int) + (([7, 8] : List task_ptr).length : Int) ≤ 2147483647 ∧
      IdsBelowCounter ⟨scenario_abc, 4⟩ ∧
      (create_processes ⟨scenario_abc, 4⟩ [7, 8]).1 =
        (List.range ([7, 8] : List task_ptr).length).map (fun i : Nat => (4 : Int) + (i : Int)) ∧
      (create_processes ⟨scenario_abc, 4⟩ [7, 8]).1.Nodup ∧
      (∀ id, id ∈ (create_processes ⟨scenario_abc, 4⟩ [7, 8]).1 →
        ∀ p, p ∈ scenario_abc.queues.flatten → (scenario_abc.heap p).id < id) :=
  ⟨by decide, by decide, scenario_abc_idsBelowCounter,
    (C13_ids_unique_and_increasing ⟨scenario_abc, 4⟩ [7, 8] (by decide) (by decide)).2.1,
    (C13_ids_unique_and_increasing ⟨scenario_abc, 4⟩ [7, 8] (by decide) (by decide)).2.2.2.2.1,
    (C13_ids_unique_and_increasing ⟨scenario_abc, 4⟩ [7, 8] (by decide)
      (by decide)).2.2.2.2.2.1 scenario_abc_idsBelowCounter⟩

theorem C14_witness :
    scenario_abc.queues.length = 16 ∧
      ∃ s2, fork ⟨scenario_abc, 4⟩ 9 = some (4, ⟨s2, wrap_int (4 + 1)⟩) ∧
        (s2.heap 9).state = task_state.RUNNABLE ∧ (s2.heap 9).queue = 0 ∧
        level s2 0 = level scenario_abc 0 ++ [9] := by
  refine ⟨by decide, ?_⟩
  obtain ⟨s2, _, hf, hst, hq, hlev, _⟩ :=
    C14_new_task_runnable_at_level_zero ⟨scenario_abc, 4⟩ 9 (by decide)
  exact ⟨s2, hf, hst, hq, hlev⟩

theorem C16_witness :
    scenario_abc.queues.length = 16 ∧ WellFormed scenario_abc ∧
      ∃ t s', next_runnable_task scenario_abc = some (some t, s') :=
  ⟨by decide, scenario_abc_wellFormed,
    (C16_next_runnable_task_failure scenario_abc (by decide)).2 scenario_abc_wellFormed
      ⟨2, by decide, by decide⟩⟩

theorem C18_witness :
    WellFormed scenario_abc ∧ DistinctIds scenario_abc ∧ scenario_abc.current_task ≠ 0 ∧
      block_task scenario_abc scenario_abc.current_task task_state.KB_WAIT =
        some scenario_abc_blocked ∧
      (scenario_abc_blocked.heap scenario_abc_blocked.current_task).state =
        task_state.RUNNABLE ∧
      scenario_abc_blocked.current_task ≠ scenario_abc.current_task :=
  ⟨scenario_abc_wellFormed, scenario_abc_distinctIds, by decide, by rfl,
    ((C18_dispatch_installs_runnable_task scenario_abc scenario_abc_wellFormed
      scenario_abc_distinctIds (by decide)).2.1 task_state.KB_WAIT scenario_abc_blocked
      (by decide) (by rfl)).2⟩

theorem C19_witness :
    WellFormed scenario_lone ∧
      (∃ s1, next_runnable_task scenario_lone = some (some scenario_lone.current_task, s1) ∧
        (s1.heap scenario_lone.current_task).queue = ((min (0 + 1) 15 : Nat) : Int) ∧
        scenario_lone.current_task ∈ level s1 (min (0 + 1) 15)) :=
  ⟨scenario_lone_wellFormed,
    (C19_lone_runnable_task_reselected scenario_lone 0 scenario_lone_wellFormed (by decide)
      (by decide) (by decide)).1⟩

theorem C20_witness :
    scenario_abc_demoted.queues.length = 16 ∧
      ∃ s', promote_task scenario_abc_demoted 1 = some s' ∧
        level s' 0 = level scenario_abc_demoted 0 ++ [1] ∧ (s'.heap 1).queue = 0 := by
  refine ⟨by decide, ?_⟩
  obtain ⟨s', h, hlev, hq, _⟩ :=
    (C20_promote_task_not_capped scenario_abc_demoted 1 (by decide)).1 1 (by decide)
      (by decide) (by decide) (by decide)
  exact ⟨s', h, hlev, by simpa using hq⟩

end Axle
